import Mathlib

set_option linter.unusedSectionVars false

/-!
Verification of the GSP sequential-pattern miner (src/tree.py, src/GSP.py).

Shallow embedding: a pattern is a list of itemsets (finsets of items), a
window is a list of (integer time index, itemset) pairs.  Python strings
(items) are modelled by an arbitrary linearly ordered type; Python ints by
Int/Nat; Python dicts by insertion-ordered association lists.
-/

variable {α : Type*} [LinearOrder α]

/-- tree.py `Pattern = Tuple[FrozenSet[str], ...]`. -/
abbrev GPattern (α : Type*) := List (Finset α)

/-- tree.py `TimedSequenceInt = List[Tuple[int, Set[str]]]`. -/
abbrev Window (α : Type*) := List (Int × Finset α)

/-- Time at position `i` of a window (`seq[idx][0]`); default 0 out of range. -/
def timeAt (seq : Window α) (i : ℕ) : Int := (seq.getD i (0, ∅)).1

/-- Itemset at position `i` of a window (`seq[idx][1]`). -/
def itemsAt (seq : Window α) (i : ℕ) : Finset α := (seq.getD i (0, ∅)).2

/-- tree.py line 61: `[i for i, (_, X) in enumerate(seq) if iset.issubset(X)]`. -/
def matchesOf (seq : Window α) (iset : Finset α) : List ℕ :=
  (List.range seq.length).filter (fun i => decide (iset ⊆ itemsAt seq i))

/-- tree.py line 76: `win_size is not None and (t - first_t) > win_size`. -/
def winViol (ws : Option Int) (span : Int) : Bool :=
  match ws with
  | some w => decide (w < span)
  | none => false

/-- tree.py lines 66-80: the backtracking search `dfs` over the remaining
per-itemset candidate position lists. -/
def dfs (seq : Window α) (mg Mg : Int) (ws : Option Int) :
    List (List ℕ) → ℕ → Int → Int → Bool
  | [], _, _, _ => true
  | ps :: rest, pidx, ft, pt =>
    ps.any fun idx =>
      if idx ≤ pidx then false
      else
        if decide (timeAt seq idx - pt < mg) || decide (Mg < timeAt seq idx - pt) then false
        else if winViol ws (timeAt seq idx - ft) then false
        else dfs seq mg Mg ws rest idx ft (timeAt seq idx)

/-- tree.py lines 41-87: `contains_with_int_constraints`. -/
def contains_with_int_constraints (seq : Window α) (pat : GPattern α)
    (mg Mg : Int) (ws : Option Int) : Bool :=
  match pat with
  | [] => true
  | p0 :: prest =>
    if ((p0 :: prest).map (matchesOf seq)).any List.isEmpty then false
    else
      (matchesOf seq p0).any fun s =>
        dfs seq mg Mg ws (prest.map (matchesOf seq)) s (timeAt seq s) (timeAt seq s)

lemma mem_matchesOf {seq : Window α} {iset : Finset α} {i : ℕ} :
    i ∈ matchesOf seq iset ↔ i < seq.length ∧ iset ⊆ itemsAt seq i := by
  simp [matchesOf, List.mem_filter, List.mem_range]

/-- The set of index lists accepted by `dfs` from a given search state,
written as a recursive predicate (window constraint checked at every step,
as the code does). -/
def RestOk (seq : Window α) (mg Mg : Int) (ws : Option Int) (ft : Int) :
    List (Finset α) → ℕ → Int → List ℕ → Prop
  | [], _, _, [] => True
  | iset :: pats, pidx, pt, idx :: idxs =>
      pidx < idx ∧ idx < seq.length ∧ iset ⊆ itemsAt seq idx ∧
      mg ≤ timeAt seq idx - pt ∧ timeAt seq idx - pt ≤ Mg ∧
      (∀ w, ws = some w → timeAt seq idx - ft ≤ w) ∧
      RestOk seq mg Mg ws ft pats idx (timeAt seq idx) idxs
  | _, _, _, _ => False

lemma restOk_nil_iff {seq : Window α} {mg Mg : Int} {ws : Option Int} {ft : Int}
    {pidx : ℕ} {pt : Int} {idxs : List ℕ} :
    RestOk seq mg Mg ws ft [] pidx pt idxs ↔ idxs = [] := by
  cases idxs <;> simp [RestOk]

lemma restOk_cons_iff {seq : Window α} {mg Mg : Int} {ws : Option Int} {ft : Int}
    {iset : Finset α} {pats : List (Finset α)} {pidx : ℕ} {pt : Int} {idxs : List ℕ} :
    RestOk seq mg Mg ws ft (iset :: pats) pidx pt idxs ↔
      ∃ idx idxs', idxs = idx :: idxs' ∧
        pidx < idx ∧ idx < seq.length ∧ iset ⊆ itemsAt seq idx ∧
        mg ≤ timeAt seq idx - pt ∧ timeAt seq idx - pt ≤ Mg ∧
        (∀ w, ws = some w → timeAt seq idx - ft ≤ w) ∧
        RestOk seq mg Mg ws ft pats idx (timeAt seq idx) idxs' := by
  cases idxs with
  | nil => simp [RestOk]
  | cons idx idxs' =>
    constructor
    · intro h
      exact ⟨idx, idxs', rfl, h⟩
    · rintro ⟨i, l, heq, h⟩
      cases heq
      exact h

lemma winViol_false_iff {ws : Option Int} {span : Int} :
    winViol ws span = false ↔ ∀ w, ws = some w → span ≤ w := by
  cases ws <;> simp [winViol]

lemma dfs_iff (seq : Window α) (mg Mg : Int) (ws : Option Int) (ft : Int) :
    ∀ (pats : List (Finset α)) (pidx : ℕ) (pt : Int),
      dfs seq mg Mg ws (pats.map (matchesOf seq)) pidx ft pt = true ↔
        ∃ idxs, RestOk seq mg Mg ws ft pats pidx pt idxs := by
  intro pats
  induction pats with
  | nil =>
    intro pidx pt
    simp [dfs, restOk_nil_iff]
  | cons iset pats ih =>
    intro pidx pt
    rw [List.map_cons]
    simp only [dfs, List.any_eq_true]
    constructor
    · rintro ⟨idx, hmem, hbody⟩
      rw [mem_matchesOf] at hmem
      by_cases hle : idx ≤ pidx
      · simp [hle] at hbody
      rw [if_neg hle] at hbody
      simp only [Bool.or_eq_true, decide_eq_true_eq] at hbody
      by_cases hgap : timeAt seq idx - pt < mg ∨ Mg < timeAt seq idx - pt
      · rw [if_pos hgap] at hbody
        exact absurd hbody (by simp)
      rw [if_neg hgap] at hbody
      by_cases hwin : winViol ws (timeAt seq idx - ft) = true
      · rw [if_pos hwin] at hbody
        exact absurd hbody (by simp)
      rw [if_neg hwin] at hbody
      rw [ih idx (timeAt seq idx)] at hbody
      obtain ⟨idxs', hrest⟩ := hbody
      push_neg at hgap
      refine ⟨idx :: idxs', restOk_cons_iff.2 ⟨idx, idxs', rfl, by omega, hmem.1, hmem.2,
        hgap.1, hgap.2, winViol_false_iff.1 (by simpa using hwin), hrest⟩⟩
    · rintro ⟨idxs, hok⟩
      obtain ⟨idx, idxs', rfl, hlt, hlen, hsub, hmg, hMg, hw, hrest⟩ := restOk_cons_iff.1 hok
      refine ⟨idx, mem_matchesOf.2 ⟨hlen, hsub⟩, ?_⟩
      have h1 : ¬ idx ≤ pidx := by omega
      have h2 : ¬ (timeAt seq idx - pt < mg ∨ Mg < timeAt seq idx - pt) := by
        push_neg
        exact ⟨hmg, hMg⟩
      have h3 : ¬ winViol ws (timeAt seq idx - ft) = true := by
        rw [Bool.not_eq_true]
        exact winViol_false_iff.2 hw
      rw [if_neg h1]
      simp only [Bool.or_eq_true, decide_eq_true_eq]
      rw [if_neg h2, if_neg h3]
      exact (ih idx (timeAt seq idx)).2 ⟨idxs', hrest⟩

/-- Inclusive gap constraint between two consecutive matched times (spec 4.2). -/
def gapOk (mg Mg t1 t2 : Int) : Prop := mg ≤ t2 - t1 ∧ t2 - t1 ≤ Mg

/-- The specification's containment statement (spec 4.2 / claim C1): there are
strictly increasing window positions, one per pattern itemset, each pattern
itemset a subset of the itemset at its position, consecutive gaps within
`[mg, Mg]`, and, when a window size is configured, last time minus first time
at most `win_size`. -/
def specContains (seq : Window α) (pat : GPattern α) (mg Mg : Int)
    (ws : Option Int) : Prop :=
  ∃ idxs : List ℕ,
    idxs.length = pat.length ∧
    idxs.Chain' (· < ·) ∧
    (∀ k, k < idxs.length → idxs.getD k 0 < seq.length ∧
        pat.getD k ∅ ⊆ itemsAt seq (idxs.getD k 0)) ∧
    idxs.Chain' (fun i j => gapOk mg Mg (timeAt seq i) (timeAt seq j)) ∧
    (∀ w, ws = some w → ∀ i0 i1, idxs.head? = some i0 → idxs.getLast? = some i1 →
        timeAt seq i1 - timeAt seq i0 ≤ w)

lemma restOk_length {seq : Window α} {mg Mg : Int} {ws : Option Int} {ft : Int} :
    ∀ {pats : List (Finset α)} {pidx : ℕ} {pt : Int} {idxs : List ℕ},
      RestOk seq mg Mg ws ft pats pidx pt idxs → idxs.length = pats.length := by
  intro pats
  induction pats with
  | nil =>
    intro pidx pt idxs h
    simp [restOk_nil_iff.1 h]
  | cons iset pats ih =>
    intro pidx pt idxs h
    obtain ⟨idx, idxs', rfl, _, _, _, _, _, _, hrest⟩ := restOk_cons_iff.1 h
    simp [ih hrest]

lemma restOk_chain_lt {seq : Window α} {mg Mg : Int} {ws : Option Int} {ft : Int} :
    ∀ {pats : List (Finset α)} {pidx : ℕ} {pt : Int} {idxs : List ℕ},
      RestOk seq mg Mg ws ft pats pidx pt idxs → List.Chain (· < ·) pidx idxs := by
  intro pats
  induction pats with
  | nil =>
    intro pidx pt idxs h
    rw [restOk_nil_iff.1 h]
    exact List.Chain.nil
  | cons iset pats ih =>
    intro pidx pt idxs h
    obtain ⟨idx, idxs', rfl, hlt, _, _, _, _, _, hrest⟩ := restOk_cons_iff.1 h
    exact List.Chain.cons hlt (ih hrest)

lemma restOk_bounds {seq : Window α} {mg Mg : Int} {ws : Option Int} {ft : Int} :
    ∀ {pats : List (Finset α)} {pidx : ℕ} {pt : Int} {idxs : List ℕ},
      RestOk seq mg Mg ws ft pats pidx pt idxs →
      ∀ k, k < idxs.length → idxs.getD k 0 < seq.length ∧
        pats.getD k ∅ ⊆ itemsAt seq (idxs.getD k 0) := by
  intro pats
  induction pats with
  | nil =>
    intro pidx pt idxs h
    rw [restOk_nil_iff.1 h]
    intro k hk
    simp at hk
  | cons iset pats ih =>
    intro pidx pt idxs h
    obtain ⟨idx, idxs', rfl, _, hlen, hsub, _, _, _, hrest⟩ := restOk_cons_iff.1 h
    intro k hk
    cases k with
    | zero => simpa using ⟨hlen, hsub⟩
    | succ k =>
      simp only [List.getD_cons_succ]
      exact ih hrest k (by simpa using hk)

lemma restOk_chain_gap {seq : Window α} {mg Mg : Int} {ws : Option Int} {ft : Int} :
    ∀ {pats : List (Finset α)} {pidx : ℕ} {pt : Int} {idxs : List ℕ},
      RestOk seq mg Mg ws ft pats pidx pt idxs → pt = timeAt seq pidx →
      List.Chain (fun i j => gapOk mg Mg (timeAt seq i) (timeAt seq j)) pidx idxs := by
  intro pats
  induction pats with
  | nil =>
    intro pidx pt idxs h _
    rw [restOk_nil_iff.1 h]
    exact List.Chain.nil
  | cons iset pats ih =>
    intro pidx pt idxs h hpt
    obtain ⟨idx, idxs', rfl, _, _, _, hmg, hMg, _, hrest⟩ := restOk_cons_iff.1 h
    refine List.Chain.cons ⟨?_, ?_⟩ (ih hrest rfl)
    · rw [← hpt]; exact hmg
    · rw [← hpt]; exact hMg

lemma restOk_last_window {seq : Window α} {mg Mg : Int} {ws : Option Int} {ft : Int} :
    ∀ {pats : List (Finset α)} {pidx : ℕ} {pt : Int} {idxs : List ℕ},
      RestOk seq mg Mg ws ft pats pidx pt idxs →
      ∀ w, ws = some w → ∀ g, idxs.getLast? = some g → timeAt seq g - ft ≤ w := by
  intro pats
  induction pats with
  | nil =>
    intro pidx pt idxs h w hw g hg
    rw [restOk_nil_iff.1 h] at hg
    simp at hg
  | cons iset pats ih =>
    intro pidx pt idxs h w hw g hg
    obtain ⟨idx, idxs', rfl, _, _, _, _, _, hwin, hrest⟩ := restOk_cons_iff.1 h
    cases idxs' with
    | nil =>
      simp only [List.getLast?_singleton, Option.some.injEq] at hg
      subst hg
      exact hwin w hw
    | cons b t =>
      rw [List.getLast?_cons_cons] at hg
      exact ih hrest w hw g hg

lemma restOk_of_parts {seq : Window α} {mg Mg : Int} {ws : Option Int} {ft : Int} :
    ∀ {pats : List (Finset α)} {idxs : List ℕ} {pidx : ℕ} {pt : Int},
      idxs.length = pats.length →
      List.Chain (· < ·) pidx idxs →
      (∀ k, k < idxs.length → idxs.getD k 0 < seq.length ∧
        pats.getD k ∅ ⊆ itemsAt seq (idxs.getD k 0)) →
      List.Chain (fun i j => gapOk mg Mg (timeAt seq i) (timeAt seq j)) pidx idxs →
      pt = timeAt seq pidx →
      (∀ i ∈ idxs, ∀ w, ws = some w → timeAt seq i - ft ≤ w) →
      RestOk seq mg Mg ws ft pats pidx pt idxs := by
  intro pats
  induction pats with
  | nil =>
    intro idxs pidx pt hlen _ _ _ _ _
    rw [List.length_eq_zero.1 hlen]
    trivial
  | cons iset pats ih =>
    intro idxs pidx pt hlen hchain hbounds hgap hpt hwin
    cases idxs with
    | nil => simp at hlen
    | cons idx idxs' =>
      obtain ⟨hlt, hchain'⟩ := List.chain_cons.1 hchain
      obtain ⟨hg, hgap'⟩ := List.chain_cons.1 hgap
      have h0 := hbounds 0 (by simp)
      simp only [List.getD_cons_zero] at h0
      refine restOk_cons_iff.2 ⟨idx, idxs', rfl, hlt, h0.1, h0.2, ?_, ?_, ?_, ?_⟩
      · rw [hpt]; exact hg.1
      · rw [hpt]; exact hg.2
      · intro w hw
        exact hwin idx (List.mem_cons_self _ _) w hw
      · refine ih (by simpa using hlen) hchain' ?_ hgap' rfl ?_
        · intro k hk
          have := hbounds (k + 1) (by simpa using Nat.succ_lt_succ hk)
          simpa using this
        · intro i hi w hw
          exact hwin i (List.mem_cons_of_mem _ hi) w hw

lemma getLast?_mem_self {β : Type*} :
    ∀ {l : List β} {g : β}, l.getLast? = some g → g ∈ l := by
  intro l
  induction l with
  | nil => intro g h; simp at h
  | cons a l ih =>
    intro g h
    cases l with
    | nil =>
      simp only [List.getLast?_singleton, Option.some.injEq] at h
      simp [h]
    | cons b t =>
      rw [List.getLast?_cons_cons] at h
      exact List.mem_cons_of_mem _ (ih h)

lemma le_getLast?_of_pairwise :
    ∀ {l : List ℕ}, List.Pairwise (· < ·) l →
      ∀ {g : ℕ}, l.getLast? = some g → ∀ x ∈ l, x ≤ g := by
  intro l
  induction l with
  | nil => intro _ g h; simp at h
  | cons a l ih =>
    intro hp g hg x hx
    cases l with
    | nil =>
      simp only [List.getLast?_singleton, Option.some.injEq] at hg
      simp only [List.mem_singleton] at hx
      omega
    | cons b t =>
      rw [List.getLast?_cons_cons] at hg
      rcases List.mem_cons.1 hx with rfl | hx'
      · have hgmem : g ∈ b :: t := getLast?_mem_self hg
        have := (List.pairwise_cons.1 hp).1 g hgmem
        omega
      · exact ih (List.pairwise_cons.1 hp).2 hg x hx'

lemma timeAt_mono {seq : Window α}
    (hs : List.Pairwise (· < ·) (seq.map Prod.fst))
    {i j : ℕ} (hij : i ≤ j) (hj : j < seq.length) :
    timeAt seq i ≤ timeAt seq j := by
  rcases Nat.eq_or_lt_of_le hij with rfl | hlt
  · exact le_refl _
  · have hi : i < seq.length := lt_trans hlt hj
    have hp := List.pairwise_iff_getElem.1 hs i j (by simpa) (by simpa) hlt
    rw [List.getElem_map, List.getElem_map] at hp
    rw [timeAt, timeAt, List.getD_eq_getElem _ _ hi, List.getD_eq_getElem _ _ hj]
    exact le_of_lt hp

/-- C1: under strictly increasing window times, `0 ≤ min_gap ≤ max_gap` and an
optional nonnegative window size, `contains_with_int_constraints` returns true
iff the specification's constrained-occurrence statement holds, and the empty
pattern is always accepted. -/
theorem contains_with_int_constraints_correct (seq : Window α) (pat : GPattern α)
    (mg Mg : Int) (ws : Option Int)
    (hsorted : List.Pairwise (· < ·) (seq.map Prod.fst))
    (hmg : 0 ≤ mg) (hmM : mg ≤ Mg) (hws : ∀ w, ws = some w → 0 ≤ w) :
    contains_with_int_constraints seq ([] : GPattern α) mg Mg ws = true ∧
    (contains_with_int_constraints seq pat mg Mg ws = true ↔
      specContains seq pat mg Mg ws) := by
  refine ⟨rfl, ?_⟩
  cases pat with
  | nil =>
    refine iff_of_true rfl ⟨[], rfl, List.chain'_nil, ?_, List.chain'_nil, ?_⟩
    · intro k hk
      simp at hk
    · intro w hw i0 i1 h0 h1
      simp at h0
  | cons p0 prest =>
    simp only [contains_with_int_constraints]
    by_cases hguard : ((p0 :: prest).map (matchesOf seq)).any List.isEmpty = true
    · rw [if_pos hguard]
      constructor
      · intro h
        exact absurd h (by simp)
      · rintro ⟨idxs, hlen, hchain, hbounds, hgap, hwin⟩
        obtain ⟨x, hx, hempty⟩ := List.any_eq_true.1 hguard
        obtain ⟨iset, hiset, rfl⟩ := List.mem_map.1 hx
        obtain ⟨k, hk, rfl⟩ := List.mem_iff_getElem.1 hiset
        have hkidx : k < idxs.length := by rw [hlen]; exact hk
        have hb := (hbounds k hkidx).2
        rw [List.getD_eq_getElem _ _ hk] at hb
        have hmem : idxs.getD k 0 ∈ matchesOf seq ((p0 :: prest)[k]) :=
          mem_matchesOf.2 ⟨(hbounds k hkidx).1, hb⟩
        rw [List.isEmpty_iff] at hempty
        rw [hempty] at hmem
        simp at hmem
    · rw [if_neg hguard]
      constructor
      · intro h
        obtain ⟨s, hsmem, hdfs⟩ := List.any_eq_true.1 h
        obtain ⟨idxs', hrest⟩ := (dfs_iff seq mg Mg ws (timeAt seq s) prest s (timeAt seq s)).1 hdfs
        refine ⟨s :: idxs', ?_, ?_, ?_, ?_, ?_⟩
        · simpa using restOk_length hrest
        · exact restOk_chain_lt hrest
        · intro k hk
          cases k with
          | zero =>
            simpa using mem_matchesOf.1 hsmem
          | succ k =>
            simp only [List.getD_cons_succ]
            exact restOk_bounds hrest k (by simpa using hk)
        · exact restOk_chain_gap hrest rfl
        · intro w hw i0 i1 h0 h1
          simp only [List.head?_cons, Option.some.injEq] at h0
          subst h0
          cases idxs' with
          | nil =>
            simp only [List.getLast?_singleton, Option.some.injEq] at h1
            subst h1
            have := hws w hw
            omega
          | cons b t =>
            rw [List.getLast?_cons_cons] at h1
            exact restOk_last_window hrest w hw i1 h1
      · rintro ⟨idxs, hlen, hchain, hbounds, hgap, hwin⟩
        cases idxs with
        | nil => simp at hlen
        | cons s idxs' =>
          have hs0 := hbounds 0 (by simp)
          simp only [List.getD_cons_zero] at hs0
          refine List.any_eq_true.2 ⟨s, mem_matchesOf.2 hs0, ?_⟩
          refine (dfs_iff seq mg Mg ws (timeAt seq s) prest s (timeAt seq s)).2
            ⟨idxs', restOk_of_parts (by simpa using hlen) hchain ?_ hgap rfl ?_⟩
          · intro k hk
            have := hbounds (k + 1) (by simpa using Nat.succ_lt_succ hk)
            simpa using this
          · intro i hi w hw
            cases idxs' with
            | nil => simp at hi
            | cons b t =>
              have hg := List.getLast?_eq_getLast (b :: t) (List.cons_ne_nil _ _)
              set g := (b :: t).getLast (List.cons_ne_nil _ _) with hgdef
              have hglast : (s :: b :: t).getLast? = some g := by
                rw [List.getLast?_cons_cons]
                exact hg
              have hfinal := hwin w hw s g (by simp) hglast
              have hpw : List.Pairwise (· < ·) (s :: b :: t) :=
                List.chain_iff_pairwise.1 hchain
              have hig : i ≤ g :=
                le_getLast?_of_pairwise hpw hglast i (List.mem_cons_of_mem _ hi)
              have hgmem : g ∈ s :: b :: t := getLast?_mem_self hglast
              obtain ⟨kg, hkg, hkgeq⟩ := List.mem_iff_getElem.1 hgmem
              have hglen : g < seq.length := by
                have hb := (hbounds kg hkg).1
                rw [List.getD_eq_getElem _ _ hkg] at hb
                rwa [hkgeq] at hb
              have hmono := timeAt_mono hsorted hig hglen
              omega

/-- Witness for C1 at a concrete window, pattern and configuration. -/
theorem contains_with_int_constraints_correct_witness :
    List.Pairwise (· < ·)
      (([((0 : Int), ({0} : Finset ℕ)), (2, {1}), (3, {0, 1})] : Window ℕ).map Prod.fst) ∧
    (contains_with_int_constraints
        ([((0 : Int), ({0} : Finset ℕ)), (2, {1}), (3, {0, 1})] : Window ℕ)
        [{0}, {1}] 1 2 (some 5) = true ↔
      specContains ([((0 : Int), ({0} : Finset ℕ)), (2, {1}), (3, {0, 1})] : Window ℕ)
        [{0}, {1}] 1 2 (some 5)) :=
  ⟨by decide,
    (contains_with_int_constraints_correct
      ([((0 : Int), ({0} : Finset ℕ)), (2, {1}), (3, {0, 1})] : Window ℕ)
      [{0}, {1}] 1 2 (some 5) (by decide) (by decide) (by decide)
      (by intro w hw; cases hw; decide)).2⟩

/-- Dictionary lookup in an association list (Python `sup[p]`, as an option). -/
def dget (d : List (GPattern α × ℕ)) (k : GPattern α) : Option ℕ :=
  (d.find? (fun kv => decide (kv.1 = k))).map (·.2)

/-- tree.py line 104: `sup = {p: 0 for p in patterns}`; dict keys are unique,
so a duplicated pattern does not create a second entry. -/
def dinit (ps : List (GPattern α)) : List (GPattern α × ℕ) :=
  ps.foldl (fun d p => if d.any (fun kv => decide (kv.1 = p)) then d else d ++ [(p, 0)]) []

/-- tree.py line 112: `sup[p] += 1`; the entry whose key is `p` is incremented. -/
def bump (d : List (GPattern α × ℕ)) (p : GPattern α) : List (GPattern α × ℕ) :=
  d.map (fun kv => if kv.1 = p then (kv.1, kv.2 + 1) else kv)

lemma dget_cons (kv : GPattern α × ℕ) (d : List (GPattern α × ℕ)) (p : GPattern α) :
    dget (kv :: d) p = if kv.1 = p then some kv.2 else dget d p := by
  by_cases h : kv.1 = p
  · simp only [dget]
    rw [List.find?_cons_of_pos _ (by simpa using h)]
    simp [h]
  · simp only [dget]
    rw [List.find?_cons_of_neg _ (by simpa using h)]
    simp [h]

lemma dget_bump (d : List (GPattern α × ℕ)) (q p : GPattern α) :
    dget (bump d q) p = if p = q then (dget d p).map (· + 1) else dget d p := by
  induction d with
  | nil => by_cases hpq : p = q <;> simp [bump, dget, hpq]
  | cons kv d ih =>
    by_cases h1 : kv.1 = q <;> by_cases h2 : kv.1 = p
    · have hpq : p = q := by rw [← h2, h1]
      simp only [bump, List.map_cons] at ih ⊢
      rw [if_pos h1, dget_cons, dget_cons]
      simp [h2, hpq]
    · have hpq : ¬ p = q := fun h => h2 (by rw [h1, ← h])
      simp only [bump, List.map_cons] at ih ⊢
      rw [if_pos h1, dget_cons, dget_cons]
      simp [h2, hpq, ih]
    · have hpq : ¬ p = q := fun h => h1 (h2.trans h)
      simp only [bump, List.map_cons] at ih ⊢
      rw [if_neg h1, dget_cons, dget_cons]
      simp [h2, hpq]
    · simp only [bump, List.map_cons] at ih ⊢
      rw [if_neg h1, dget_cons, dget_cons]
      simp [h2, ih]

lemma dget_isSome_iff (d : List (GPattern α × ℕ)) (p : GPattern α) :
    (d.any (fun kv => decide (kv.1 = p)) = true) ↔ (dget d p).isSome := by
  simp [dget, List.any_eq_true, List.find?_isSome]

lemma dget_append_single (d : List (GPattern α × ℕ)) (q : GPattern α) (v : ℕ)
    (p : GPattern α) :
    dget (d ++ [(q, v)]) p =
      if (dget d p).isSome then dget d p else if p = q then some v else none := by
  simp only [dget, List.find?_append]
  cases hf : d.find? (fun kv => decide (kv.1 = p)) with
  | none =>
    by_cases hpq : p = q
    · subst hpq
      rw [List.find?_cons_of_pos _ (by simp)]
      simp [Option.or]
    · have hqp : ¬ q = p := fun h => hpq h.symm
      rw [List.find?_cons_of_neg _ (by simpa using hqp)]
      simp [Option.or, hpq]
  | some kv => simp [Option.or]

lemma dget_dinit (ps : List (GPattern α)) (p : GPattern α) :
    dget (dinit ps) p = if p ∈ ps then some 0 else none := by
  suffices h : ∀ (qs : List (GPattern α)) (d : List (GPattern α × ℕ)),
      dget (qs.foldl
          (fun d p => if d.any (fun kv => decide (kv.1 = p)) then d else d ++ [(p, 0)]) d) p
        = if (dget d p).isSome then dget d p
          else if p ∈ qs then some 0 else none by
    have h0 := h ps []
    have : dget ([] : List (GPattern α × ℕ)) p = none := by simp [dget]
    rw [dinit, h0, this]
    simp
  intro qs
  induction qs with
  | nil =>
    intro d
    cases hd : dget d p <;> simp [hd]
  | cons q qs ih =>
    intro d
    simp only [List.foldl_cons]
    by_cases hq : d.any (fun kv => decide (kv.1 = q)) = true
    · rw [if_pos hq, ih]
      by_cases hs : (dget d p).isSome
      · simp [hs]
      · have hpq : ¬ p = q := by
          intro h
          subst h
          exact hs ((dget_isSome_iff d p).1 hq)
        rw [Option.not_isSome_iff_eq_none] at hs
        simp [hs, hpq]
    · rw [if_neg hq, ih, dget_append_single]
      by_cases hs : (dget d p).isSome
      · simp [hs]
      · rw [Option.not_isSome_iff_eq_none] at hs
        by_cases hpq : p = q
        · subst hpq
          simp [hs]
        · simp [hs, hpq]

lemma contains_false_of_no_first (seq : Window α) (p0 : Finset α)
    (prest : List (Finset α)) (mg Mg : Int) (ws : Option Int)
    (h : seq.any (fun e => decide (p0 ⊆ e.2)) = false) :
    contains_with_int_constraints seq (p0 :: prest) mg Mg ws = false := by
  have hm : matchesOf seq p0 = [] := by
    rw [List.eq_nil_iff_forall_not_mem]
    intro i hi
    rw [mem_matchesOf] at hi
    have hmem : seq[i] ∈ seq := List.getElem_mem hi.1
    have hno := List.any_eq_false.1 h seq[i] hmem
    apply hno
    simp only [decide_eq_true_eq]
    have hit : itemsAt seq i = seq[i].2 := by
      show (seq.getD i (0, ∅)).2 = seq[i].2
      rw [List.getD_eq_getElem _ _ hi.1]
    rw [← hit]
    exact hi.2
  simp [contains_with_int_constraints, hm]

lemma any_first_of_contains (seq : Window α) (p0 : Finset α)
    (prest : List (Finset α)) (mg Mg : Int) (ws : Option Int)
    (h : contains_with_int_constraints seq (p0 :: prest) mg Mg ws = true) :
    seq.any (fun e => decide (p0 ⊆ e.2)) = true := by
  by_contra hne
  have hf : seq.any (fun e => decide (p0 ⊆ e.2)) = false := by
    cases hv : seq.any (fun e => decide (p0 ⊆ e.2))
    · rfl
    · exact absurd hv hne
  have := contains_false_of_no_first seq p0 prest mg Mg ws hf
  rw [h] at this
  exact Bool.noConfusion this

lemma count_filter_eq {β : Type*} [BEq β] [LawfulBEq β] (l : List β) (f : β → Bool)
    (p : β) : (l.filter f).count p = if f p then l.count p else 0 := by
  induction l with
  | nil => simp
  | cons a l ih =>
    by_cases hf : f a
    · rw [List.filter_cons_of_pos hf, List.count_cons, List.count_cons, ih]
      by_cases hfp : f p = true
      · simp [hfp]
      · have hap : (a == p) = false := by
          cases h : a == p
          · rfl
          · have := eq_of_beq h
            subst this
            exact absurd hf hfp
        simp [hfp, hap]
    · rw [List.filter_cons_of_neg hf, ih, List.count_cons]
      by_cases hfp : f p = true
      · have hap : (a == p) = false := by
          cases h : a == p
          · rfl
          · have := eq_of_beq h
            subst this
            exact absurd hfp hf
        simp [hfp, hap]
      · simp [hfp]

/-- tree.py lines 23-32: `PatternTrie.insert`, restricted to the `first_index`
map (`self.first_index.setdefault(pat[0], []).append(pat)`); the trie node
structure built by `insert` is never consulted by `count_support_db_int`, so
only the first index is modelled. -/
def insertFI (fi : List (Finset α × List (GPattern α))) (p : GPattern α) :
    List (Finset α × List (GPattern α)) :=
  match p with
  | [] => fi
  | i0 :: _ =>
    if fi.any (fun kv => decide (kv.1 = i0)) then
      fi.map (fun kv => if kv.1 = i0 then (kv.1, kv.2 ++ [p]) else kv)
    else fi ++ [(i0, [p])]

/-- tree.py lines 34-38: `PatternTrie.build` (first-index part). -/
def buildFirstIndex (ps : List (GPattern α)) : List (Finset α × List (GPattern α)) :=
  ps.foldl insertFI []

/-- Total number of registrations of `p` across all first-index buckets. -/
def fiCount (fi : List (Finset α × List (GPattern α))) (p : GPattern α) : ℕ :=
  (fi.map (fun kv => kv.2.count p)).sum

lemma insertFI_keysNodup (fi : List (Finset α × List (GPattern α))) (r : GPattern α)
    (h : (fi.map Prod.fst).Nodup) : ((insertFI fi r).map Prod.fst).Nodup := by
  cases r with
  | nil => exact h
  | cons i0 rr =>
    by_cases hany : fi.any (fun kv => decide (kv.1 = i0)) = true
    · simp only [insertFI, if_pos hany, List.map_map]
      have : ∀ kv ∈ fi,
          (Prod.fst ∘ fun kv => if kv.1 = i0 then (kv.1, kv.2 ++ [i0 :: rr]) else kv) kv
            = Prod.fst kv := by
        intro kv _
        by_cases h0 : kv.1 = i0 <;> simp [h0]
      rw [List.map_congr_left this]
      exact h
    · simp only [insertFI, if_neg hany, List.map_append]
      rw [List.nodup_append]
      refine ⟨h, by simp, ?_⟩
      intro a ha hb
      simp only [List.map_cons, List.map_nil, List.mem_singleton] at hb
      subst hb
      obtain ⟨kv, hkv, hk1⟩ := List.mem_map.1 ha
      apply hany
      exact List.any_eq_true.2 ⟨kv, hkv, by simp [hk1]⟩

lemma insertFI_heads (fi : List (Finset α × List (GPattern α))) (r : GPattern α)
    (h : ∀ kv ∈ fi, ∀ q ∈ kv.2, q.head? = some kv.1) :
    ∀ kv ∈ insertFI fi r, ∀ q ∈ kv.2, q.head? = some kv.1 := by
  cases r with
  | nil => exact h
  | cons i0 rr =>
    by_cases hany : fi.any (fun kv => decide (kv.1 = i0)) = true
    · simp only [insertFI, if_pos hany]
      intro kv hkv q hq
      obtain ⟨kv0, hkv0, rfl⟩ := List.mem_map.1 hkv
      by_cases h0 : kv0.1 = i0
      · simp only [if_pos h0] at hq ⊢
        rcases List.mem_append.1 hq with hq' | hq'
        · exact h kv0 hkv0 q hq'
        · simp only [List.mem_singleton] at hq'
          subst hq'
          simp [h0]
      · simp only [if_neg h0] at hq ⊢
        exact h kv0 hkv0 q hq
    · simp only [insertFI, if_neg hany]
      intro kv hkv q hq
      rcases List.mem_append.1 hkv with hkv' | hkv'
      · exact h kv hkv' q hq
      · simp only [List.mem_singleton] at hkv'
        subst hkv'
        simp only [List.mem_singleton] at hq
        subst hq
        simp

lemma count_singleton_ite (p r : GPattern α) :
    List.count p [r] = if p = r then 1 else 0 := by
  by_cases hpr : p = r <;> simp [List.count_cons, hpr]

lemma fiCount_mapAppend (p r : GPattern α) (i0 : Finset α) :
    ∀ (fi : List (Finset α × List (GPattern α))),
      (fi.map Prod.fst).Nodup →
      fi.any (fun kv => decide (kv.1 = i0)) = true →
      fiCount (fi.map (fun kv => if kv.1 = i0 then (kv.1, kv.2 ++ [r]) else kv)) p
        = fiCount fi p + if p = r then 1 else 0 := by
  intro fi
  induction fi with
  | nil =>
    intro _ h
    simp at h
  | cons kv fi ih =>
    intro hnd hany
    have hnd' : (fi.map Prod.fst).Nodup := (List.nodup_cons.1 (by simpa using hnd)).2
    by_cases h0 : kv.1 = i0
    · simp only [fiCount, List.map_cons, if_pos h0, List.sum_cons]
      have hnotmem : kv.1 ∉ fi.map Prod.fst := (List.nodup_cons.1 (by simpa using hnd)).1
      have htail : fi.map (fun kv => if kv.1 = i0 then (kv.1, kv.2 ++ [r]) else kv) = fi := by
        have : ∀ kv' ∈ fi, (if kv'.1 = i0 then (kv'.1, kv'.2 ++ [r]) else kv') = kv' := by
          intro kv' hkv'
          have hne : kv'.1 ≠ i0 := by
            rw [← h0]
            intro he
            exact hnotmem (he ▸ List.mem_map.2 ⟨kv', hkv', rfl⟩)
          simp [hne]
        calc fi.map (fun kv => if kv.1 = i0 then (kv.1, kv.2 ++ [r]) else kv)
            = fi.map id := List.map_congr_left this
          _ = fi := List.map_id fi
      rw [htail, List.count_append, count_singleton_ite]
      ring
    · have hany' : fi.any (fun kv => decide (kv.1 = i0)) = true := by
        simp only [List.any_cons, Bool.or_eq_true] at hany
        rcases hany with hbad | hok
        · exact absurd (by simpa using hbad) h0
        · exact hok
      simp only [fiCount, List.map_cons, if_neg h0, List.sum_cons] at ih ⊢
      rw [ih hnd' hany']
      ring

lemma fiCount_insertFI (fi : List (Finset α × List (GPattern α))) (r p : GPattern α)
    (hk : (fi.map Prod.fst).Nodup) (hp : p ≠ []) :
    fiCount (insertFI fi r) p = fiCount fi p + if p = r then 1 else 0 := by
  cases r with
  | nil =>
    have hne : ¬ p = ([] : GPattern α) := hp
    show fiCount fi p = fiCount fi p + if p = ([] : GPattern α) then 1 else 0
    rw [if_neg hne]
    simp
  | cons i0 rr =>
    by_cases hany : fi.any (fun kv => decide (kv.1 = i0)) = true
    · simp only [insertFI, if_pos hany]
      exact fiCount_mapAppend p (i0 :: rr) i0 fi hk hany
    · simp only [insertFI, if_neg hany, fiCount, List.map_append, List.sum_append,
        List.map_cons, List.map_nil, List.sum_cons, List.sum_nil]
      rw [count_singleton_ite]
      simp

lemma buildFI_aux :
    ∀ (ps : List (GPattern α)) (fi : List (Finset α × List (GPattern α))),
      (fi.map Prod.fst).Nodup →
      (∀ kv ∈ fi, ∀ q ∈ kv.2, q.head? = some kv.1) →
      ((ps.foldl insertFI fi).map Prod.fst).Nodup ∧
      (∀ kv ∈ ps.foldl insertFI fi, ∀ q ∈ kv.2, q.head? = some kv.1) ∧
      (∀ p : GPattern α, p ≠ [] →
        fiCount (ps.foldl insertFI fi) p = fiCount fi p + ps.count p) := by
  intro ps
  induction ps with
  | nil =>
    intro fi hk hh
    exact ⟨hk, hh, fun p _ => by simp⟩
  | cons r ps ih =>
    intro fi hk hh
    simp only [List.foldl_cons]
    obtain ⟨a, b, c⟩ := ih (insertFI fi r) (insertFI_keysNodup fi r hk) (insertFI_heads fi r hh)
    refine ⟨a, b, ?_⟩
    intro p hp
    rw [c p hp, fiCount_insertFI fi r p hk hp, List.count_cons]
    by_cases hpr : p = r
    · simp [hpr]
      ring
    · have hrp : ¬ r = p := fun h => hpr h.symm
      simp [hpr, hrp]

lemma buildFI_keysNodup (ps : List (GPattern α)) :
    ((buildFirstIndex ps).map Prod.fst).Nodup :=
  (buildFI_aux ps [] (by simp) (by simp)).1

lemma buildFI_heads (ps : List (GPattern α)) :
    ∀ kv ∈ buildFirstIndex ps, ∀ q ∈ kv.2, q.head? = some kv.1 :=
  (buildFI_aux ps [] (by simp) (by simp)).2.1

lemma buildFI_count (ps : List (GPattern α)) (p : GPattern α) (hp : p ≠ []) :
    fiCount (buildFirstIndex ps) p = ps.count p := by
  have := (buildFI_aux ps [] (by simp) (by simp)).2.2 p hp
  simpa [fiCount] using this

/-- tree.py lines 110-112: the loop over the patterns of one bucket. -/
def supStepPat (seq : Window α) (mg Mg : Int) (ws : Option Int)
    (sup : List (GPattern α × ℕ)) (p : GPattern α) : List (GPattern α × ℕ) :=
  if contains_with_int_constraints seq p mg Mg ws then bump sup p else sup

/-- tree.py lines 107-112: one first-index bucket against one window, with the
first-itemset skip of lines 108-109. -/
def supStepBucket (seq : Window α) (mg Mg : Int) (ws : Option Int)
    (sup : List (GPattern α × ℕ)) (kv : Finset α × List (GPattern α)) :
    List (GPattern α × ℕ) :=
  if seq.any (fun e => decide (kv.1 ⊆ e.2)) then
    kv.2.foldl (supStepPat seq mg Mg ws) sup
  else sup

/-- tree.py lines 106-112: all buckets against one window. -/
def supStepSeq (fi : List (Finset α × List (GPattern α))) (mg Mg : Int)
    (ws : Option Int) (sup : List (GPattern α × ℕ)) (seq : Window α) :
    List (GPattern α × ℕ) :=
  fi.foldl (supStepBucket seq mg Mg ws) sup

/-- tree.py lines 90-113: `count_support_db_int`. -/
def count_support_db_int (DB : List (Window α)) (patterns : List (GPattern α))
    (mg Mg : Int) (ws : Option Int) : List (GPattern α × ℕ) :=
  DB.foldl (supStepSeq (buildFirstIndex patterns) mg Mg ws) (dinit patterns)

/-- Number of increments one bucket contributes for `p` on one window. -/
def bucketHits (seq : Window α) (mg Mg : Int) (ws : Option Int) (p : GPattern α)
    (kv : Finset α × List (GPattern α)) : ℕ :=
  if seq.any (fun e => decide (kv.1 ⊆ e.2)) then
    (kv.2.filter (fun q => contains_with_int_constraints seq q mg Mg ws)).count p
  else 0

lemma dget_patsFold (seq : Window α) (mg Mg : Int) (ws : Option Int) :
    ∀ (qs : List (GPattern α)) (sup : List (GPattern α × ℕ)) (p : GPattern α),
      dget (qs.foldl (supStepPat seq mg Mg ws) sup) p =
        (dget sup p).map
          (· + (qs.filter
            (fun q => contains_with_int_constraints seq q mg Mg ws)).count p) := by
  intro qs
  induction qs with
  | nil =>
    intro sup p
    cases h : dget sup p <;> simp [h]
  | cons q qs ih =>
    intro sup p
    simp only [List.foldl_cons, supStepPat]
    by_cases hc : contains_with_int_constraints seq q mg Mg ws = true
    · rw [if_pos hc, ih, dget_bump, List.filter_cons_of_pos (by simpa using hc)]
      by_cases hpq : p = q
      · rw [if_pos hpq]
        cases h : dget sup p with
        | none => simp
        | some v =>
          subst hpq
          simp only [Option.map_some', List.count_cons]
          simp
          ring
      · rw [if_neg hpq, List.count_cons]
        have hqp' : (q == p) = false := by
          cases h : q == p
          · rfl
          · exact absurd (eq_of_beq h).symm hpq
        rw [hqp']
        simp
    · rw [if_neg hc, ih, List.filter_cons_of_neg (by simpa using hc)]

lemma dget_bucketFold (seq : Window α) (mg Mg : Int) (ws : Option Int) :
    ∀ (fi : List (Finset α × List (GPattern α))) (sup : List (GPattern α × ℕ))
      (p : GPattern α),
      dget (fi.foldl (supStepBucket seq mg Mg ws) sup) p =
        (dget sup p).map (· + (fi.map (bucketHits seq mg Mg ws p)).sum) := by
  intro fi
  induction fi with
  | nil =>
    intro sup p
    cases h : dget sup p <;> simp [h]
  | cons kv fi ih =>
    intro sup p
    simp only [List.foldl_cons, supStepBucket, List.map_cons, List.sum_cons]
    by_cases hany : seq.any (fun e => decide (kv.1 ⊆ e.2)) = true
    · rw [if_pos hany, ih, dget_patsFold]
      have hb : bucketHits seq mg Mg ws p kv =
          (kv.2.filter (fun q => contains_with_int_constraints seq q mg Mg ws)).count p := by
        simp [bucketHits, hany]
      rw [hb]
      cases h : dget sup p with
      | none => simp
      | some v =>
        simp only [Option.map_some']
        congr 1
        ring
    · rw [if_neg hany, ih]
      have hb : bucketHits seq mg Mg ws p kv = 0 := by
        simp [bucketHits, hany]
      rw [hb]
      simp

lemma dget_dbFold (fi : List (Finset α × List (GPattern α))) (mg Mg : Int)
    (ws : Option Int) :
    ∀ (DBl : List (Window α)) (sup : List (GPattern α × ℕ)) (p : GPattern α),
      dget (DBl.foldl (supStepSeq fi mg Mg ws) sup) p =
        (dget sup p).map
          (· + (DBl.map (fun seq => (fi.map (bucketHits seq mg Mg ws p)).sum)).sum) := by
  intro DBl
  induction DBl with
  | nil =>
    intro sup p
    cases h : dget sup p <;> simp [h]
  | cons seq DBl ih =>
    intro sup p
    simp only [List.foldl_cons, supStepSeq, List.map_cons, List.sum_cons]
    rw [ih, dget_bucketFold]
    cases h : dget sup p with
    | none => simp
    | some v =>
      simp only [Option.map_some']
      congr 1
      ring

lemma bucketSum_eq (ps : List (GPattern α)) (seq : Window α) (mg Mg : Int)
    (ws : Option Int) (p : GPattern α) (hp : p ≠ []) :
    ((buildFirstIndex ps).map (bucketHits seq mg Mg ws p)).sum =
      if contains_with_int_constraints seq p mg Mg ws = true then ps.count p else 0 := by
  by_cases hc : contains_with_int_constraints seq p mg Mg ws = true
  · rw [if_pos hc]
    have hmap : ∀ kv ∈ buildFirstIndex ps,
        bucketHits seq mg Mg ws p kv = kv.2.count p := by
      intro kv hkv
      by_cases hany : seq.any (fun e => decide (kv.1 ⊆ e.2)) = true
      · simp only [bucketHits, if_pos hany]
        rw [count_filter_eq, if_pos hc]
      · simp only [bucketHits, if_neg hany]
        rw [eq_comm, List.count_eq_zero]
        intro hpmem
        have hhead := buildFI_heads ps kv hkv p hpmem
        cases p with
        | nil => exact hp rfl
        | cons p0 prest =>
          simp only [List.head?_cons, Option.some.injEq] at hhead
          have hanyp := any_first_of_contains seq p0 prest mg Mg ws hc
          rw [hhead] at hanyp
          exact hany hanyp
    rw [List.map_congr_left hmap]
    exact buildFI_count ps p hp
  · rw [if_neg hc]
    have hmap : ∀ kv ∈ buildFirstIndex ps, bucketHits seq mg Mg ws p kv = 0 := by
      intro kv _
      by_cases hany : seq.any (fun e => decide (kv.1 ⊆ e.2)) = true
      · simp only [bucketHits, if_pos hany]
        rw [count_filter_eq, if_neg hc]
      · simp [bucketHits, hany]
    rw [List.map_congr_left hmap]
    simp

lemma sum_ite_eq_mul_filterLength {γ : Type*} (f : γ → Bool) (n : ℕ) :
    ∀ (l : List γ), (l.map (fun x => if f x = true then n else 0)).sum =
      n * (l.filter f).length := by
  intro l
  induction l with
  | nil => simp
  | cons x l ih =>
    by_cases hf : f x = true
    · rw [List.map_cons, List.sum_cons, if_pos hf, ih, List.filter_cons_of_pos hf]
      simp [Nat.mul_succ, Nat.add_comm]
    · rw [List.map_cons, List.sum_cons, if_neg hf, ih, List.filter_cons_of_neg hf]
      simp

lemma count_eq_one_of_nodup_mem {β : Type*} [BEq β] [LawfulBEq β] {l : List β} {a : β}
    (hnd : l.Nodup) (ha : a ∈ l) : l.count a = 1 := by
  induction l with
  | nil => simp at ha
  | cons b l ih =>
    rw [List.count_cons]
    rcases List.mem_cons.1 ha with rfl | ha'
    · have hnot : a ∉ l := (List.nodup_cons.1 hnd).1
      have h0 : l.count a = 0 := List.count_eq_zero.2 hnot
      simp [h0]
    · have hba : (b == a) = false := by
        cases h : b == a
        · rfl
        · have hb := eq_of_beq h
          subst hb
          exact absurd ha' (List.nodup_cons.1 hnd).1
      rw [ih (List.nodup_cons.1 hnd).2 ha', hba]
      simp

/-- The central counting fact: for a registered nonempty pattern `p`, the
returned count is its multiplicity in the input batch times the number of
windows that contain it. -/
lemma count_support_dget (DB : List (Window α)) (ps : List (GPattern α))
    (mg Mg : Int) (ws : Option Int) (p : GPattern α)
    (hp : p ≠ []) (hmem : p ∈ ps) :
    dget (count_support_db_int DB ps mg Mg ws) p =
      some (ps.count p *
        (DB.filter (fun seq => contains_with_int_constraints seq p mg Mg ws)).length) := by
  rw [count_support_db_int, dget_dbFold, dget_dinit, if_pos hmem]
  simp only [Option.map_some']
  have hseq : ∀ seq ∈ DB,
      ((buildFirstIndex ps).map (bucketHits seq mg Mg ws p)).sum =
        if contains_with_int_constraints seq p mg Mg ws = true then ps.count p else 0 :=
    fun seq _ => bucketSum_eq ps seq mg Mg ws p hp
  rw [List.map_congr_left hseq, sum_ite_eq_mul_filterLength]
  simp

/-- C2: on a duplicate-free batch of nonempty patterns, the support map has an
entry for every input pattern, and that entry equals the number of windows the
containment engine accepts for that pattern — so the first-itemset skip never
changes a count. -/
theorem count_support_db_int_correct (DB : List (Window α)) (ps : List (GPattern α))
    (mg Mg : Int) (ws : Option Int)
    (hnd : ps.Nodup) (hne : ∀ p ∈ ps, p ≠ []) :
    ∀ p ∈ ps, dget (count_support_db_int DB ps mg Mg ws) p =
      some ((DB.filter (fun seq => contains_with_int_constraints seq p mg Mg ws)).length) := by
  intro p hp
  rw [count_support_dget DB ps mg Mg ws p (hne p hp) hp,
    count_eq_one_of_nodup_mem hnd hp, one_mul]

/-- Witness for C2 on a concrete database and batch. -/
theorem count_support_db_int_correct_witness :
    ([[({0} : Finset ℕ)], [{1}]] : List (GPattern ℕ)).Nodup ∧
    dget (count_support_db_int
        ([[((0 : Int), ({0} : Finset ℕ))], [((1 : Int), ({1} : Finset ℕ))]] : List (Window ℕ))
        [[{0}], [{1}]] 0 0 none) [{0}] = some 1 := by
  refine ⟨by decide, ?_⟩
  have h := count_support_db_int_correct
    ([[((0 : Int), ({0} : Finset ℕ))], [((1 : Int), ({1} : Finset ℕ))]] : List (Window ℕ))
    [[{0}], [{1}]] 0 0 none (by decide) (by decide) [{0}] (by decide)
  rw [h]
  decide

/-- C10: if a nonempty pattern occurs `n ≥ 2` times in the batch, it is
registered `n` times in total under its first-itemset key in the trie's first
index, and the returned count is `n` times the number of windows containing
it — the one-increment-per-window guarantee needs a duplicate-free batch. -/
theorem count_support_db_int_duplicates (DB : List (Window α)) (ps : List (GPattern α))
    (mg Mg : Int) (ws : Option Int) (p : GPattern α)
    (hp : p ≠ []) (hdup : 2 ≤ ps.count p) :
    (∀ kv ∈ buildFirstIndex ps, p ∈ kv.2 → p.head? = some kv.1) ∧
    fiCount (buildFirstIndex ps) p = ps.count p ∧
    dget (count_support_db_int DB ps mg Mg ws) p =
      some (ps.count p *
        (DB.filter (fun seq => contains_with_int_constraints seq p mg Mg ws)).length) := by
  have hmem : p ∈ ps := List.count_pos_iff.1 (by omega)
  exact ⟨fun kv hkv hpkv => buildFI_heads ps kv hkv p hpkv,
    buildFI_count ps p hp, count_support_dget DB ps mg Mg ws p hp hmem⟩

/-- Witness for C10: the batch registers the duplicated pattern twice and the
returned count doubles the per-window containment count. -/
theorem count_support_db_int_duplicates_witness :
    2 ≤ ([[({0} : Finset ℕ)], [{0}]] : List (GPattern ℕ)).count [{0}] ∧
    dget (count_support_db_int ([[((0 : Int), ({0} : Finset ℕ))]] : List (Window ℕ))
        [[{0}], [{0}]] 0 0 none) [{0}] =
      some (([[({0} : Finset ℕ)], [{0}]] : List (GPattern ℕ)).count [{0}] *
        (([[((0 : Int), ({0} : Finset ℕ))]] : List (Window ℕ)).filter
          (fun seq => contains_with_int_constraints seq [{0}] 0 0 none)).length) :=
  ⟨by decide,
    (count_support_db_int_duplicates ([[((0 : Int), ({0} : Finset ℕ))]] : List (Window ℕ))
      [[{0}], [{0}]] 0 0 none [{0}] (by decide) (by decide)).2.2⟩

/-- Python `frozenset.__lt__`: proper subset.  This is the element comparison
`sorted` actually uses on tuples of frozensets in GSP.py line 157. -/
def fsetLtPy (s t : Finset α) : Bool := decide (s ⊂ t)

/-- Python tuple comparison on patterns: the first position where the itemsets
differ decides via `fsetLtPy`; otherwise a strict prefix is smaller. -/
def patLtPy : GPattern α → GPattern α → Bool
  | [], [] => false
  | [], _ :: _ => true
  | _ :: _, [] => false
  | x :: xs, y :: ys => if x = y then patLtPy xs ys else fsetLtPy x y

/-- Stable insertion: place `x` after every earlier element `y` with
`y < x`, before the first other one. -/
def orderedInsertPy (x : GPattern α) : List (GPattern α) → List (GPattern α)
  | [] => [x]
  | y :: ys => if patLtPy y x then y :: orderedInsertPy x ys else x :: y :: ys

/-- GSP.py line 157: `sorted(F_prev)` modelled as a stable insertion sort over
the Python comparison; the theorems below only use that it permutes its
input. -/
def pySorted : List (GPattern α) → List (GPattern α)
  | [] => []
  | x :: xs => orderedInsertPy x (pySorted xs)

lemma perm_orderedInsertPy (x : GPattern α) :
    ∀ (l : List (GPattern α)), (orderedInsertPy x l).Perm (x :: l) := by
  intro l
  induction l with
  | nil => simp [orderedInsertPy]
  | cons y ys ih =>
    by_cases h : patLtPy y x = true
    · simp only [orderedInsertPy, if_pos h]
      exact (ih.cons y).trans (List.Perm.swap x y ys)
    · simp only [orderedInsertPy, if_neg h]
      exact List.Perm.refl _

lemma perm_pySorted : ∀ (l : List (GPattern α)), (pySorted l).Perm l := by
  intro l
  induction l with
  | nil => simp [pySorted]
  | cons x xs ih =>
    simp only [pySorted]
    exact (perm_orderedInsertPy x (pySorted xs)).trans (ih.cons x)

lemma mem_pySorted {l : List (GPattern α)} {a : GPattern α} :
    a ∈ pySorted l ↔ a ∈ l :=
  (perm_pySorted l).mem_iff

/-- Python `list(dict.fromkeys(cands))` (GSP.py line 185): drop duplicates,
keeping the first occurrence of each element, in order. -/
def dedupFirst : List (GPattern α) → List (GPattern α)
  | [] => []
  | x :: xs => x :: dedupFirst (xs.filter (fun y => decide (y ≠ x)))
termination_by l => l.length
decreasing_by
  simp only [List.length_cons]
  exact Nat.lt_succ_of_le (List.length_filter_le _ _)

lemma mem_dedupFirst (a : GPattern α) :
    ∀ (n : ℕ) (l : List (GPattern α)), l.length ≤ n →
      (a ∈ dedupFirst l ↔ a ∈ l) := by
  intro n
  induction n with
  | zero =>
    intro l hl
    rw [List.length_eq_zero.1 (Nat.le_zero.1 hl)]
    simp [dedupFirst]
  | succ n ih =>
    intro l hl
    cases l with
    | nil => simp [dedupFirst]
    | cons x xs =>
      rw [dedupFirst]
      have hlen : (xs.filter (fun y => decide (y ≠ x))).length ≤ n :=
        le_trans (List.length_filter_le _ _) (by simpa using hl)
      constructor
      · intro h
        rcases List.mem_cons.1 h with rfl | h'
        · exact List.mem_cons_self _ _
        · have := (ih _ hlen).1 h'
          exact List.mem_cons_of_mem _ (List.mem_of_mem_filter this)
      · intro h
        rcases List.mem_cons.1 h with rfl | h'
        · exact List.mem_cons_self _ _
        · by_cases hax : a = x
          · subst hax
            exact List.mem_cons_self _ _
          · refine List.mem_cons_of_mem _ ((ih _ hlen).2 ?_)
            exact List.mem_filter.2 ⟨h', by simpa using hax⟩

lemma nodup_dedupFirst :
    ∀ (n : ℕ) (l : List (GPattern α)), l.length ≤ n → (dedupFirst l).Nodup := by
  intro n
  induction n with
  | zero =>
    intro l hl
    rw [List.length_eq_zero.1 (Nat.le_zero.1 hl)]
    simp [dedupFirst]
  | succ n ih =>
    intro l hl
    cases l with
    | nil => simp [dedupFirst]
    | cons x xs =>
      rw [dedupFirst]
      have hlen : (xs.filter (fun y => decide (y ≠ x))).length ≤ n :=
        le_trans (List.length_filter_le _ _) (by simpa using hl)
      rw [List.nodup_cons]
      refine ⟨?_, ih _ hlen⟩
      intro hmem
      have := (mem_dedupFirst x n _ hlen).1 hmem
      have := List.mem_filter.1 this
      simp at this

lemma dedupFirst_sublist :
    ∀ (n : ℕ) (l : List (GPattern α)), l.length ≤ n → (dedupFirst l).Sublist l := by
  intro n
  induction n with
  | zero =>
    intro l hl
    rw [List.length_eq_zero.1 (Nat.le_zero.1 hl)]
    simp [dedupFirst]
  | succ n ih =>
    intro l hl
    cases l with
    | nil => simp [dedupFirst]
    | cons x xs =>
      rw [dedupFirst]
      have hlen : (xs.filter (fun y => decide (y ≠ x))).length ≤ n :=
        le_trans (List.length_filter_le _ _) (by simpa using hl)
      exact (ih _ hlen).trans (List.filter_sublist _) |>.cons₂ x

/-- GSP.py lines 167-169, S-step emission for one ordered pair: if
`a[1:] == b[:-1]`, emit `a + (b[-1],)` (`b[-1]` totalised to `∅` for the
empty pattern, which the data model excludes). -/
def sStep (a b : GPattern α) : List (GPattern α) :=
  if a.tail = b.dropLast then [a ++ [(b.getLast?).getD ∅]] else []

/-- GSP.py lines 171-183, I-step emission for one ordered pair: if
`a[:-1] == b[:-1]`, `b[-1]` is a singleton `{x}`, `x ∉ a[-1]` and
`x > max(a[-1])` (Python `max` of a nonempty frozenset; totalised through
`Finset.max : WithBot α`), emit `a[:-1] + (a[-1] ∪ {x},)`. -/
def iStep (a b : GPattern α) : List (GPattern α) :=
  if a.dropLast = b.dropLast then
    match ((b.getLast?).getD ∅).sort (· ≤ ·) with
    | [x] =>
      if x ∉ (a.getLast?).getD ∅ ∧ ((a.getLast?).getD ∅).max < (x : WithBot α) then
        [a.dropLast ++ [insert x ((a.getLast?).getD ∅)]]
      else []
    | _ => []
  else []

/-- GSP.py lines 154-185: the emission stream of `join_step` over ordered
pairs of the sorted previous frequent set, S-step then I-step per pair,
skipping `a == b`. -/
def joinEmissions (F_prev : List (GPattern α)) : List (GPattern α) :=
  (pySorted F_prev).bind fun a =>
    (pySorted F_prev).bind fun b =>
      if a = b then [] else sStep a b ++ iStep a b

/-- GSP.py lines 154-185: `join_step` is the emission stream deduplicated
keeping first occurrences (`list(dict.fromkeys(cands))`). -/
def join_step (F_prev : List (GPattern α)) : List (GPattern α) :=
  dedupFirst (joinEmissions F_prev)

/-- Claim C4's S-rule, in the spec's words: `a` minus its first itemset
equals `b` minus its last itemset; emit `a` with `b`'s last itemset appended. -/
def SRule (a b c : GPattern α) : Prop :=
  ∃ lb, b.getLast? = some lb ∧ a.tail = b.dropLast ∧ c = a ++ [lb]

/-- Claim C4's I-rule, in the spec's words: `a` and `b` agree on all itemsets
but the last, `b`'s last itemset is a single fresh item `x` strictly greater
than every item of `a`'s last itemset; emit `a` with `x` merged into its last
itemset. -/
def IRule (a b c : GPattern α) : Prop :=
  ∃ la x, a.getLast? = some la ∧ b.getLast? = some {x} ∧
    x ∉ la ∧ (∀ y ∈ la, y < x) ∧ a.dropLast = b.dropLast ∧
    c = a.dropLast ++ [insert x la]

lemma finset_max_lt_iff (s : Finset α) (x : α) :
    s.max < (x : WithBot α) ↔ ∀ y ∈ s, y < x := by
  constructor
  · intro h y hy
    have hle := Finset.le_max hy
    exact_mod_cast lt_of_le_of_lt hle h
  · intro h
    cases hm : s.max with
    | bot => exact WithBot.bot_lt_coe x
    | coe m =>
      have hmem : m ∈ s := Finset.mem_of_max hm
      exact_mod_cast h m hmem

lemma sort_eq_singleton_iff (s : Finset α) (x : α) :
    s.sort (· ≤ ·) = [x] ↔ s = {x} := by
  constructor
  · intro h
    have hm : ∀ a, a ∈ s ↔ a ∈ ({x} : Finset α) := by
      intro a
      constructor
      · intro ha
        have h1 : a ∈ s.sort (· ≤ ·) := (Finset.mem_sort (fun x1 x2 : α => x1 ≤ x2)).2 ha
        rw [h] at h1
        simpa using h1
      · intro ha
        have hax : a = x := by simpa using ha
        subst hax
        have h1 : a ∈ s.sort (· ≤ ·) := by
          rw [h]
          simp
        exact (Finset.mem_sort (fun x1 x2 : α => x1 ≤ x2)).1 h1
    exact Finset.ext hm
  · intro h
    subst h
    exact Finset.sort_singleton (fun x1 x2 : α => x1 ≤ x2) x

lemma mem_pairEmit_iff {a b c : GPattern α} (ha : a ≠ []) (hb : b ≠ []) :
    c ∈ sStep a b ++ iStep a b ↔ SRule a b c ∨ IRule a b c := by
  obtain ⟨la, hla⟩ : ∃ la, a.getLast? = some la :=
    ⟨a.getLast ha, List.getLast?_eq_getLast a ha⟩
  obtain ⟨lb, hlb⟩ : ∃ lb, b.getLast? = some lb :=
    ⟨b.getLast hb, List.getLast?_eq_getLast b hb⟩
  rw [List.mem_append]
  constructor
  · rintro (hs | hi)
    · left
      simp only [sStep] at hs
      by_cases hcond : a.tail = b.dropLast
      · rw [if_pos hcond] at hs
        simp only [List.mem_singleton] at hs
        exact ⟨lb, hlb, hcond, by rw [hs, hlb]; rfl⟩
      · rw [if_neg hcond] at hs
        simp at hs
    · right
      simp only [iStep] at hi
      by_cases hcond : a.dropLast = b.dropLast
      · rw [if_pos hcond] at hi
        rw [hlb, hla] at hi
        simp only [Option.getD_some] at hi
        cases hx : lb.sort (· ≤ ·) with
        | nil =>
          rw [hx] at hi
          simp at hi
        | cons x xt =>
          cases xt with
          | nil =>
            rw [hx] at hi
            have hi' : c ∈ (if x ∉ la ∧ la.max < (x : WithBot α) then
                [a.dropLast ++ [insert x la]] else []) := hi
            by_cases hcond2 : x ∉ la ∧ la.max < (x : WithBot α)
            · rw [if_pos hcond2] at hi'
              simp only [List.mem_singleton] at hi'
              refine ⟨la, x, hla, ?_, hcond2.1, ?_, hcond, hi'⟩
              · rw [hlb, (sort_eq_singleton_iff lb x).1 hx]
              · exact (finset_max_lt_iff la x).1 hcond2.2
            · rw [if_neg hcond2] at hi'
              simp at hi'
          | cons z zt =>
            rw [hx] at hi
            simp at hi
      · rw [if_neg hcond] at hi
        simp at hi
  · rintro (⟨lb', hlb', hcond, hc⟩ | ⟨la', x, hla', hlb', hnx, hmax, hcond, hc⟩)
    · left
      rw [hlb'] at hlb
      cases hlb
      simp only [sStep, if_pos hcond, List.mem_singleton]
      rw [hc, hlb']
      rfl
    · right
      simp only [iStep, if_pos hcond]
      rw [hlb', hla']
      simp only [Option.getD_some]
      rw [Finset.sort_singleton]
      show c ∈ (if x ∉ la' ∧ la'.max < (x : WithBot α) then
          [a.dropLast ++ [insert x la']] else [])
      rw [if_pos ⟨hnx, (finset_max_lt_iff la' x).2 hmax⟩]
      simp [hc]

lemma mem_join_step_iff (F : List (GPattern α)) (hne : ∀ p ∈ F, p ≠ [])
    (c : GPattern α) :
    c ∈ join_step F ↔
      ∃ a ∈ F, ∃ b ∈ F, a ≠ b ∧ (SRule a b c ∨ IRule a b c) := by
  rw [join_step, mem_dedupFirst c (joinEmissions F).length _ (le_refl _), joinEmissions]
  simp only [List.mem_bind]
  constructor
  · rintro ⟨a, haS, b, hbS, hcc⟩
    have haF := mem_pySorted.1 haS
    have hbF := mem_pySorted.1 hbS
    by_cases hab : a = b
    · rw [if_pos hab] at hcc
      simp at hcc
    · rw [if_neg hab] at hcc
      exact ⟨a, haF, b, hbF, hab, (mem_pairEmit_iff (hne a haF) (hne b hbF)).1 hcc⟩
  · rintro ⟨a, haF, b, hbF, hab, hr⟩
    refine ⟨a, mem_pySorted.2 haF, b, mem_pySorted.2 hbF, ?_⟩
    rw [if_neg hab]
    exact (mem_pairEmit_iff (hne a haF) (hne b hbF)).2 hr

/-- C4: on a previous level of nonempty patterns, `join_step` emits exactly
the S-rule and I-rule candidates of ordered pairs `(a, b)` with `a ≠ b`, with
duplicate-free output that is a subsequence of the emission stream (first-seen
dedup). -/
theorem join_step_correct (F : List (GPattern α)) (hne : ∀ p ∈ F, p ≠ []) :
    (∀ c, c ∈ join_step F ↔
      ∃ a ∈ F, ∃ b ∈ F, a ≠ b ∧ (SRule a b c ∨ IRule a b c)) ∧
    (join_step F).Nodup ∧ (join_step F).Sublist (joinEmissions F) :=
  ⟨fun c => mem_join_step_iff F hne c,
    nodup_dedupFirst (joinEmissions F).length _ (le_refl _),
    dedupFirst_sublist (joinEmissions F).length _ (le_refl _)⟩

/-- Witness for C4 on a concrete frequent set. -/
theorem join_step_correct_witness :
    (∀ p ∈ ([[({0} : Finset ℕ)], [{1}]] : List (GPattern ℕ)), p ≠ []) ∧
    (join_step ([[({0} : Finset ℕ)], [{1}]] : List (GPattern ℕ))).Nodup :=
  ⟨by decide,
    (join_step_correct ([[({0} : Finset ℕ)], [{1}]] : List (GPattern ℕ))
      (by decide)).2.1⟩

/-- GSP.py lines 197-204, rule A: every itemset with exactly one item must be
removable as a whole itemset, yielding a member of the previous frequent set
(modelled as list membership; Python wraps `F_prev` in a `set`). -/
def passA (F : List (GPattern α)) (c : GPattern α) : Bool :=
  (List.range c.length).all fun i =>
    if (c.getD i ∅).card = 1 then decide (c.eraseIdx i ∈ F) else true

/-- GSP.py lines 207-218, rule B: from every itemset with more than one item,
every single item must be removable, yielding a member of the previous set. -/
def passB (F : List (GPattern α)) (c : GPattern α) : Bool :=
  (List.range c.length).all fun i =>
    if (c.getD i ∅).card ≤ 1 then true
    else ((c.getD i ∅).sort (· ≤ ·)).all fun x =>
      decide (c.set i ((c.getD i ∅).erase x) ∈ F)

/-- GSP.py lines 190-223: `prune_step`; a candidate survives iff both loops
pass, and the surviving candidates keep their input order. -/
def prune_step (Ck : List (GPattern α)) (F_prev : List (GPattern α)) :
    List (GPattern α) :=
  Ck.filter fun c => passA F_prev c && passB F_prev c

lemma passA_iff (F : List (GPattern α)) (c : GPattern α) :
    passA F c = true ↔
      ∀ i, i < c.length → (c.getD i ∅).card = 1 → c.eraseIdx i ∈ F := by
  simp only [passA, List.all_eq_true, List.mem_range]
  constructor
  · intro h i hi hcard
    have := h i hi
    rw [if_pos hcard] at this
    simpa using this
  · intro h i hi
    by_cases hcard : (c.getD i ∅).card = 1
    · rw [if_pos hcard]
      simpa using h i hi hcard
    · rw [if_neg hcard]

lemma passB_iff (F : List (GPattern α)) (c : GPattern α) :
    passB F c = true ↔
      ∀ i, i < c.length → 1 < (c.getD i ∅).card →
        ∀ x ∈ c.getD i ∅, c.set i ((c.getD i ∅).erase x) ∈ F := by
  simp only [passB, List.all_eq_true, List.mem_range]
  constructor
  · intro h i hi hcard x hx
    have hi2 := h i hi
    rw [if_neg (by omega)] at hi2
    have hxs : x ∈ (c.getD i ∅).sort (· ≤ ·) :=
      (Finset.mem_sort (fun x1 x2 : α => x1 ≤ x2)).2 hx
    rw [List.all_eq_true] at hi2
    simpa using hi2 x hxs
  · intro h i hi
    by_cases hcard : (c.getD i ∅).card ≤ 1
    · rw [if_pos hcard]
    · rw [if_neg hcard, List.all_eq_true]
      intro x hxs
      have hx : x ∈ c.getD i ∅ :=
        (Finset.mem_sort (fun x1 x2 : α => x1 ≤ x2)).1 hxs
      simpa using h i hi (by omega) x hx

/-- C5: `prune_step` retains a candidate iff rule A holds for every
single-item itemset and rule B for every item of every multi-item itemset,
and the survivors keep their input order (subsequence of `Ck`). -/
theorem prune_step_correct (Ck F : List (GPattern α)) :
    (∀ c, c ∈ prune_step Ck F ↔ c ∈ Ck ∧
      (∀ i, i < c.length → (c.getD i ∅).card = 1 → c.eraseIdx i ∈ F) ∧
      (∀ i, i < c.length → 1 < (c.getD i ∅).card →
        ∀ x ∈ c.getD i ∅, c.set i ((c.getD i ∅).erase x) ∈ F)) ∧
    (prune_step Ck F).Sublist Ck := by
  constructor
  · intro c
    rw [prune_step, List.mem_filter]
    constructor
    · rintro ⟨hmem, hpass⟩
      rw [Bool.and_eq_true] at hpass
      exact ⟨hmem, (passA_iff F c).1 hpass.1, (passB_iff F c).1 hpass.2⟩
    · rintro ⟨hmem, hA, hB⟩
      refine ⟨hmem, ?_⟩
      rw [Bool.and_eq_true]
      exact ⟨(passA_iff F c).2 hA, (passB_iff F c).2 hB⟩
  · exact List.filter_sublist _

lemma patLtPy_irrefl : ∀ a : GPattern α, patLtPy a a = false := by
  intro a
  induction a with
  | nil => rfl
  | cons x xs ih => simp [patLtPy, ih]

lemma patLtPy_trans :
    ∀ (a b c : GPattern α), patLtPy a b = true → patLtPy b c = true →
      patLtPy a c = true := by
  intro a
  induction a with
  | nil =>
    intro b c hab hbc
    cases b with
    | nil => simp [patLtPy] at hab
    | cons y ys =>
      cases c with
      | nil => simp [patLtPy] at hbc
      | cons z zs => simp [patLtPy]
  | cons x xs ih =>
    intro b c hab hbc
    cases b with
    | nil => simp [patLtPy] at hab
    | cons y ys =>
      cases c with
      | nil => simp [patLtPy] at hbc
      | cons z zs =>
        simp only [patLtPy] at hab hbc ⊢
        by_cases hxy : x = y
        · rw [if_pos hxy] at hab
          by_cases hyz : y = z
          · rw [if_pos hyz] at hbc
            rw [if_pos (hxy.trans hyz)]
            exact ih ys zs hab hbc
          · rw [if_neg hyz] at hbc
            have hxz : ¬ x = z := fun h => hyz (by rw [← hxy]; exact h)
            rw [if_neg hxz, hxy]
            exact hbc
        · rw [if_neg hxy] at hab
          by_cases hyz : y = z
          · have hxz : ¬ x = z := fun h => hxy (h.trans hyz.symm)
            rw [if_neg hxz, ← hyz]
            exact hab
          · rw [if_neg hyz] at hbc
            have hxy' : x ⊂ y := by simpa [fsetLtPy] using hab
            have hyz' : y ⊂ z := by simpa [fsetLtPy] using hbc
            have hxz' : x ⊂ z := hxy'.trans hyz'
            have hxz : ¬ x = z := fun h => (h ▸ hxz').2 (h ▸ hxz').1
            rw [if_neg hxz]
            simpa [fsetLtPy] using hxz'

/-- C8 as stated is false: the comparison `sorted` uses on patterns (tuple
comparison with frozenset proper-subset as the element order) leaves these two
distinct length-1 patterns mutually incomparable. -/
theorem patLtPy_not_total_counterexample :
    patLtPy ([{0}] : GPattern ℕ) [{1}] = false ∧
    patLtPy ([{1}] : GPattern ℕ) [{0}] = false ∧
    ([{0}] : GPattern ℕ) ≠ [{1}] := by
  decide

/-- C8 amended: the comparison used by the join step's sort is tuple-style
lexicographic over the proper-subset itemset order — an irreflexive and
transitive strict order that is not total; distinct patterns can be mutually
incomparable, and the sorted order of a frequent set can depend on the input
order. -/
theorem patLtPy_partial_not_total :
    (∀ a : GPattern ℕ, patLtPy a a = false) ∧
    (∀ a b c : GPattern ℕ,
      patLtPy a b = true → patLtPy b c = true → patLtPy a c = true) ∧
    (∃ a b : GPattern ℕ, a ≠ b ∧ patLtPy a b = false ∧ patLtPy b a = false) ∧
    (∃ l1 l2 : List (GPattern ℕ), l1.Perm l2 ∧ pySorted l1 ≠ pySorted l2) := by
  refine ⟨fun a => patLtPy_irrefl a, fun a b c hab hbc => patLtPy_trans a b c hab hbc,
    ⟨[{0}], [{1}], by decide, by decide, by decide⟩, ?_⟩
  refine ⟨[[{0}], [{1}]], [[{1}], [{0}]], by decide, by decide⟩

/-- Python `int(x)` for a numeric `x` (truncation toward zero), GSP.py
line 243; the source's float arithmetic is modelled exactly over ℚ. -/
def pyInt (q : ℚ) : ℤ := if q < 0 then -(⌊-q⌋) else ⌊q⌋

/-- GSP.py lines 239-245: support percentage → minimum support count:
`raw = pct/100 * db_size`; 0 when `pct ≤ 0`, else `int(raw)` plus one more
when `raw > int(raw)`. -/
def min_sup_count (pct : ℚ) (n : ℕ) : ℕ :=
  if pct ≤ 0 then 0
  else
    let raw : ℚ := pct / 100 * n
    let m : ℤ := pyInt raw
    if (m : ℚ) < raw then (m + 1).toNat else m.toNat

/-- GSP.py line 313: `Fk = [p for p, sup in sup_map.items() if sup >= min_sup_count]`
(and the analogous filter producing F1 at lines 263-267). -/
def frequentOf (sup_map : List (GPattern α × ℕ)) (t : ℕ) : List (GPattern α) :=
  (sup_map.filter (fun kv => decide (t ≤ kv.2))).map (·.1)

lemma mem_frequentOf (sup_map : List (GPattern α × ℕ)) (t : ℕ) (q : GPattern α) :
    q ∈ frequentOf sup_map t ↔ ∃ cnt, (q, cnt) ∈ sup_map ∧ t ≤ cnt := by
  simp only [frequentOf, List.mem_map, List.mem_filter]
  constructor
  · rintro ⟨kv, ⟨hm, hle⟩, hq⟩
    refine ⟨kv.2, ?_, by simpa using hle⟩
    have : (q, kv.2) = kv := by
      rw [← hq]
    rw [this]
    exact hm
  · rintro ⟨cnt, hm, hle⟩
    exact ⟨(q, cnt), ⟨hm, by simpa using hle⟩, rfl⟩

/-- C3: with a nonempty database and a percentage in [0, 100], the computed
minimum support count is 0 for `pct ≤ 0` and `⌈pct/100 × n⌉` for `pct > 0`,
and a pattern enters a level's frequent set iff its recorded support count
reaches that threshold. -/
theorem min_sup_count_correct (pct : ℚ) (n : ℕ) (hn : 1 ≤ n) (h0 : 0 ≤ pct)
    (h100 : pct ≤ 100) :
    (pct ≤ 0 → min_sup_count pct n = 0) ∧
    (0 < pct → (min_sup_count pct n : ℤ) = ⌈pct / 100 * (n : ℚ)⌉) ∧
    (∀ (sup_map : List (GPattern ℕ × ℕ)) (q : GPattern ℕ),
      q ∈ frequentOf sup_map (min_sup_count pct n) ↔
        ∃ cnt, (q, cnt) ∈ sup_map ∧ min_sup_count pct n ≤ cnt) := by
  refine ⟨?_, ?_, fun sup_map q => mem_frequentOf sup_map (min_sup_count pct n) q⟩
  · intro hle
    rw [min_sup_count, if_pos hle]
  · intro hpos
    have hnpos : (0 : ℚ) < n := by
      have : (1 : ℚ) ≤ n := by exact_mod_cast hn
      linarith
    have hraw : 0 < pct / 100 * (n : ℚ) := by
      apply mul_pos _ hnpos
      positivity
    rw [min_sup_count, if_neg (by linarith)]
    simp only []
    have hpyInt : pyInt (pct / 100 * n) = ⌊pct / 100 * (n : ℚ)⌋ := by
      rw [pyInt, if_neg (by linarith)]
    rw [hpyInt]
    have hfnn : 0 ≤ ⌊pct / 100 * (n : ℚ)⌋ := Int.floor_nonneg.2 (le_of_lt hraw)
    by_cases hfr : ((⌊pct / 100 * (n : ℚ)⌋ : ℚ)) < pct / 100 * n
    · rw [if_pos hfr, Int.toNat_of_nonneg (by omega)]
      refine le_antisymm ?_ ?_
      · rw [Int.add_one_le_iff, Int.lt_ceil]
        exact hfr
      · refine Int.ceil_le.2 ?_
        push_cast
        exact le_of_lt (Int.lt_floor_add_one _)
    · rw [if_neg hfr, Int.toNat_of_nonneg hfnn]
      have hle' : pct / 100 * (n : ℚ) ≤ (⌊pct / 100 * (n : ℚ)⌋ : ℚ) := by
        push_neg at hfr
        exact hfr
      have heq : pct / 100 * (n : ℚ) = (⌊pct / 100 * (n : ℚ)⌋ : ℚ) :=
        le_antisymm hle' (Int.floor_le _)
      rw [heq, Int.ceil_intCast, Int.floor_intCast]

/-- Witness for C3 at pct = 50, n = 3 (threshold ⌈1.5⌉ = 2). -/
theorem min_sup_count_correct_witness :
    ((1 : ℕ) ≤ 3 ∧ (0 : ℚ) ≤ 50 ∧ (50 : ℚ) ≤ 100) ∧
    (0 < (50 : ℚ) → (min_sup_count 50 3 : ℤ) = ⌈(50 : ℚ) / 100 * (3 : ℚ)⌉) :=
  ⟨⟨by decide, by decide, by decide⟩,
    (min_sup_count_correct 50 3 (by decide) (by decide) (by decide)).2.1⟩

/-- C9 as stated is false: no construction-time validation exists and the
containment engine silently accepts a pattern with an empty itemset (the empty
set is a subset of every event's itemset), here returning true. -/
theorem contains_accepts_empty_itemset :
    contains_with_int_constraints ([((0 : Int), ({0} : Finset ℕ))] : Window ℕ)
      [(∅ : Finset ℕ)] 0 0 none = true := by
  decide

/-- C9 amended: the engine performs no validation of the pattern; for the
pattern consisting of one empty itemset it returns true exactly when the
window is nonempty. -/
theorem contains_empty_itemset_behavior (seq : Window α) (mg Mg : Int)
    (ws : Option Int) :
    contains_with_int_constraints seq [(∅ : Finset α)] mg Mg ws = !seq.isEmpty := by
  cases seq with
  | nil => rfl
  | cons e rest =>
    have h0 : 0 ∈ matchesOf (e :: rest) (∅ : Finset α) :=
      mem_matchesOf.2 ⟨by simp, by simp [itemsAt]⟩
    have hemp : (matchesOf (e :: rest) (∅ : Finset α)).isEmpty = false := by
      cases hm : matchesOf (e :: rest) (∅ : Finset α) with
      | nil =>
        rw [hm] at h0
        exact absurd h0 (List.not_mem_nil 0)
      | cons a l => rfl
    simp only [contains_with_int_constraints, List.map_cons, List.map_nil,
      List.any_cons, List.any_nil, hemp, Bool.or_false, Bool.false_eq_true,
      if_false, List.isEmpty_cons, Bool.not_false]
    exact List.any_eq_true.2 ⟨0, h0, rfl⟩

/-- GSP.py lines 256-259: the union of one window's itemsets (`seen`). -/
def windowItems (seq : Window α) : Finset α :=
  seq.foldl (fun s e => s ∪ e.2) ∅

/-- The elements of a finset in ascending order, via a structurally recursive
insertion sort (kernel-computable, unlike `Finset.sort`'s merge sort); stands
for Python's set iteration, whose order does not affect any count. -/
def finsetAscList (s : Finset α) : List α :=
  Quotient.lift (fun l : List α => List.insertionSort (· ≤ ·) l)
    (fun l1 l2 h =>
      List.eq_of_perm_of_sorted
        (((List.perm_insertionSort _ l1).trans h).trans
          (List.perm_insertionSort _ l2).symm)
        (List.sorted_insertionSort _ l1) (List.sorted_insertionSort _ l2))
    s.val

/-- GSP.py line 261: `item_support[item] = item_support.get(item, 0) + 1`. -/
def bumpItem (d : List (α × ℕ)) (a : α) : List (α × ℕ) :=
  if d.any (fun kv => decide (kv.1 = a)) then
    d.map (fun kv => if kv.1 = a then (kv.1, kv.2 + 1) else kv)
  else d ++ [(a, 1)]

/-- GSP.py lines 255-261: the F1 scan; each item is counted once per window
(Python iterates the set `seen`, modelled in sorted order — counts do not
depend on the iteration order). -/
def itemSupportDB (DB : List (Window α)) : List (α × ℕ) :=
  DB.foldl (fun d seq => (finsetAscList (windowItems seq)).foldl bumpItem d) []

/-- GSP.py lines 263-267: frequent single items as length-1 patterns. -/
def F1of (DB : List (Window α)) (t : ℕ) : List (GPattern α) :=
  ((itemSupportDB DB).filter (fun kv => decide (t ≤ kv.2))).map
    (fun kv => [({kv.1} : Finset α)])

/-- One iteration of the `k ≥ 2` loop of GSP.run (GSP.py lines 292-329):
join, prune, stop on empty candidates, count support, filter by the
threshold; `[]` encodes both break conditions. -/
def levelStep (DB : List (Window α)) (mg Mg : Int) (ws : Option Int) (t : ℕ)
    (F : List (GPattern α)) : List (GPattern α) :=
  let Ck := prune_step (join_step F) F
  if Ck = [] then []
  else frequentOf (count_support_db_int DB Ck mg Mg ws) t

/-- The (pattern, count) rows recorded for one frequent level (GSP.py lines
320-326; the derived percentage `100·count/db_size` is omitted as redundant). -/
def levelRows (sup : List (GPattern α × ℕ)) (Fk : List (GPattern α)) :
    List (GPattern α × ℕ) :=
  Fk.map (fun p => (p, (dget sup p).getD 0))

/-- GSP.py lines 290-329: the `while F_prev:` loop, with explicit fuel; by
the termination invariant behind `gsp_levels_terminate` the fuel chosen in
`gsp_run` is never exhausted. -/
def runLoop (DB : List (Window α)) (mg Mg : Int) (ws : Option Int) (t : ℕ) :
    ℕ → List (GPattern α) → ℕ →
    List (ℕ × List (GPattern α × ℕ)) → List (ℕ × List (GPattern α × ℕ))
  | 0, _, _, results => results
  | fuel + 1, F_prev, k, results =>
    if F_prev = [] then results
    else
      let Ck := prune_step (join_step F_prev) F_prev
      if Ck = [] then results
      else
        let sup := count_support_db_int DB Ck mg Mg ws
        let Fk := frequentOf sup t
        if Fk = [] then results
        else runLoop DB mg Mg ws t fuel Fk (k + 1)
          (results ++ [(k, levelRows sup Fk)])

/-- GSP.py lines 228-331: `GSP.run`, on an already-built window database
(`prepare_db`, the pandas ingestion, is the out-of-scope collaborator).
Returns the per-level (pattern, count) maps; level 1 is recorded
unconditionally as in the source (line 270). -/
def gsp_run (DB : List (Window α)) (pct : ℚ) (mg Mg : Int) (ws : Option Int) :
    List (ℕ × List (GPattern α × ℕ)) :=
  if DB.length = 0 then []
  else
    runLoop DB mg Mg ws (min_sup_count pct DB.length)
      ((itemSupportDB DB).length + 1)
      (F1of DB (min_sup_count pct DB.length)) 2
      [(1, ((itemSupportDB DB).filter
          (fun kv => decide (min_sup_count pct DB.length ≤ kv.2))).map
        (fun kv => ([({kv.1} : Finset α)], kv.2)))]

lemma runLoop_nil (DB : List (Window α)) (mg Mg : Int) (ws : Option Int)
    (t : ℕ) :
    ∀ (fuel k : ℕ) (results : List (ℕ × List (GPattern α × ℕ))),
      runLoop DB mg Mg ws t fuel [] k results = results := by
  intro fuel k results
  cases fuel with
  | zero => rfl
  | succ fuel => simp [runLoop]

/-- C7 as stated is false on its second half: with a nonempty database but no
frequent level-1 item, `GSP.run` returns `{1: {}}` — it records level 1 with
an empty pattern map — rather than an empty mapping. -/
theorem gsp_run_records_empty_level1 :
    gsp_run ([[((0 : Int), (∅ : Finset ℕ))]] : List (Window ℕ)) 0 0 0 none =
      [(1, [])] ∧
    ([(1, ([] : List (GPattern ℕ × ℕ)))] :
      List (ℕ × List (GPattern ℕ × ℕ))) ≠ [] := by
  constructor
  · decide
  · decide

/-- C7 amended: an empty database yields the empty mapping; a nonempty
database with an empty level-1 frequent set yields a result that records
exactly level 1 with an empty pattern map and no further level. -/
theorem gsp_run_empty_cases (pct : ℚ) (mg Mg : Int) (ws : Option Int) :
    (gsp_run ([] : List (Window α)) pct mg Mg ws = []) ∧
    (∀ DB : List (Window α), DB ≠ [] →
      F1of DB (min_sup_count pct DB.length) = [] →
      gsp_run DB pct mg Mg ws = [(1, [])]) := by
  constructor
  · rfl
  · intro DB hne hF1
    have hlen : ¬ DB.length = 0 := by
      simpa using fun h => hne (List.length_eq_zero.1 h)
    rw [gsp_run, if_neg hlen]
    have hfilter : (itemSupportDB DB).filter
        (fun kv => decide (min_sup_count pct DB.length ≤ kv.2)) = [] := by
      have h := hF1
      rw [F1of] at h
      exact List.map_eq_nil.1 h
    rw [hF1, hfilter, List.map_nil, runLoop_nil]

/-- Witness for the amended C7 at a concrete nonempty database with no
frequent level-1 item (100% threshold over two windows with disjoint items
would also do; here the single window has an empty itemset). -/
theorem gsp_run_empty_cases_witness :
    (([[((0 : Int), (∅ : Finset ℕ))]] : List (Window ℕ)) ≠ [] ∧
      F1of ([[((0 : Int), (∅ : Finset ℕ))]] : List (Window ℕ))
        (min_sup_count 0 ([[((0 : Int), (∅ : Finset ℕ))]] : List (Window ℕ)).length) = []) ∧
    gsp_run ([[((0 : Int), (∅ : Finset ℕ))]] : List (Window ℕ)) 0 0 0 none = [(1, [])] :=
  ⟨⟨by decide, by decide⟩,
    (gsp_run_empty_cases (0 : ℚ) 0 0 none).2
      ([[((0 : Int), (∅ : Finset ℕ))]] : List (Window ℕ)) (by decide) (by decide)⟩

/-- All item occurrences of a pattern, with multiplicity. -/
def patItems (p : GPattern α) : Multiset α := (p.map Finset.val).sum

/-- Total number of item occurrences of a pattern. -/
def patSize (p : GPattern α) : ℕ := Multiset.card (patItems p)

/-- The items of a pattern, as a finset. -/
def patItemsFin (p : GPattern α) : Finset α := p.foldr (fun s t => s ∪ t) ∅

/-- The item universe of a frequent set. -/
def itemsOf (F : List (GPattern α)) : Finset α :=
  F.foldr (fun p t => patItemsFin p ∪ t) ∅

/-- The invariant every mining level preserves (used for claim C6): patterns
are nonempty with nonempty itemsets, use each item at most once, draw their
items from `U`, and have at least `s` item occurrences. -/
def GoodPat (U : Finset α) (s : ℕ) (p : GPattern α) : Prop :=
  p ≠ [] ∧ (∀ i ∈ p, i ≠ ∅) ∧ (patItems p).Nodup ∧
  (∀ a ∈ patItems p, a ∈ U) ∧ s ≤ patSize p

lemma patItems_cons (s : Finset α) (p : GPattern α) :
    patItems (s :: p) = s.val + patItems p := by
  simp [patItems]

lemma patItems_append (p q : GPattern α) :
    patItems (p ++ q) = patItems p + patItems q := by
  simp [patItems]

lemma patItems_singleton (t : Finset α) : patItems [t] = t.val := by
  simp [patItems]

lemma mem_patItems (a : α) :
    ∀ (p : GPattern α), a ∈ patItems p ↔ ∃ s ∈ p, a ∈ s := by
  intro p
  induction p with
  | nil => simp [patItems]
  | cons s p ih =>
    rw [patItems_cons]
    simp only [Multiset.mem_add, List.mem_cons]
    constructor
    · rintro (h | h)
      · exact ⟨s, Or.inl rfl, h⟩
      · obtain ⟨u, hu, hau⟩ := ih.1 h
        exact ⟨u, Or.inr hu, hau⟩
    · rintro ⟨u, hu | hu, hau⟩
      · subst hu
        exact Or.inl hau
      · exact Or.inr (ih.2 ⟨u, hu, hau⟩)

lemma patSize_cons (s : Finset α) (p : GPattern α) :
    patSize (s :: p) = s.card + patSize p := by
  rw [patSize, patItems_cons, Multiset.card_add]
  rfl

lemma patSize_append (p q : GPattern α) :
    patSize (p ++ q) = patSize p + patSize q := by
  simp [patSize, patItems_append]

lemma patSize_singleton (t : Finset α) : patSize [t] = t.card := by
  rw [patSize, patItems_singleton]
  rfl

lemma patSize_pos (p : GPattern α) (hne : p ≠ []) (hiset : ∀ i ∈ p, i ≠ ∅) :
    1 ≤ patSize p := by
  cases p with
  | nil => exact absurd rfl hne
  | cons s p =>
    rw [patSize_cons]
    have : s ≠ ∅ := hiset s (List.mem_cons_self _ _)
    have : 1 ≤ s.card := Finset.card_pos.2 (Finset.nonempty_iff_ne_empty.2 this)
    omega

lemma pattern_of_size_one (p : GPattern α) (hne : p ≠ [])
    (hiset : ∀ i ∈ p, i ≠ ∅) (hsz : patSize p = 1) :
    ∃ A : Finset α, p = [A] ∧ A.card = 1 := by
  cases p with
  | nil => exact absurd rfl hne
  | cons s rest =>
    rw [patSize_cons] at hsz
    have hs : 1 ≤ s.card :=
      Finset.card_pos.2 (Finset.nonempty_iff_ne_empty.2 (hiset s (List.mem_cons_self _ _)))
    have hrest : patSize rest = 0 := by omega
    have hrestnil : rest = [] := by
      cases rest with
      | nil => rfl
      | cons u rest' =>
        rw [patSize_cons] at hrest
        have : 1 ≤ u.card := Finset.card_pos.2 (Finset.nonempty_iff_ne_empty.2
          (hiset u (List.mem_cons_of_mem _ (List.mem_cons_self _ _))))
        omega
    subst hrestnil
    exact ⟨s, rfl, by omega⟩

lemma getLast?_shape {l : GPattern α} {v : Finset α} (h : l.getLast? = some v) :
    l = l.dropLast ++ [v] :=
  (List.dropLast_append_getLast? v (Option.mem_def.2 h)).symm

lemma foldl_preserves_pred {β γ : Type*} (P : β → Prop) (f : β → γ → β)
    (hstep : ∀ b x, P b → P (f b x)) :
    ∀ (l : List γ) (b : β), P b → P (l.foldl f b) := by
  intro l
  induction l with
  | nil => intro b hb; exact hb
  | cons x l ih =>
    intro b hb
    exact ih (f b x) (hstep b x hb)

lemma keys_dinit (ps : List (GPattern α)) :
    ∀ kv ∈ dinit ps, kv.1 ∈ ps := by
  suffices h : ∀ (qs : List (GPattern α)) (d : List (GPattern α × ℕ)),
      (∀ kv ∈ d, kv.1 ∈ ps) → (∀ q ∈ qs, q ∈ ps) →
      ∀ kv ∈ qs.foldl
        (fun d p => if d.any (fun kv => decide (kv.1 = p)) then d else d ++ [(p, 0)]) d,
        kv.1 ∈ ps by
    intro kv hkv
    exact h ps [] (by simp) (fun q hq => hq) kv hkv
  intro qs
  induction qs with
  | nil =>
    intro d hd _ kv hkv
    exact hd kv hkv
  | cons q qs ih =>
    intro d hd hqs kv hkv
    simp only [List.foldl_cons] at hkv
    by_cases hany : d.any (fun kv => decide (kv.1 = q)) = true
    · rw [if_pos hany] at hkv
      exact ih d hd (fun r hr => hqs r (List.mem_cons_of_mem _ hr)) kv hkv
    · rw [if_neg hany] at hkv
      refine ih (d ++ [(q, 0)]) ?_ (fun r hr => hqs r (List.mem_cons_of_mem _ hr)) kv hkv
      intro kv' hkv'
      rcases List.mem_append.1 hkv' with h' | h'
      · exact hd kv' h'
      · simp only [List.mem_singleton] at h'
        subst h'
        exact hqs q (List.mem_cons_self _ _)

lemma keys_bump (ps : List (GPattern α)) (sup : List (GPattern α × ℕ))
    (q : GPattern α) (h : ∀ kv ∈ sup, kv.1 ∈ ps) :
    ∀ kv ∈ bump sup q, kv.1 ∈ ps := by
  intro kv hkv
  obtain ⟨kv0, hkv0, rfl⟩ := List.mem_map.1 hkv
  by_cases h0 : kv0.1 = q
  · rw [if_pos h0]
    exact h kv0 hkv0
  · rw [if_neg h0]
    exact h kv0 hkv0

lemma count_support_keys (DB : List (Window α)) (ps : List (GPattern α))
    (mg Mg : Int) (ws : Option Int) :
    ∀ kv ∈ count_support_db_int DB ps mg Mg ws, kv.1 ∈ ps := by
  rw [count_support_db_int]
  refine foldl_preserves_pred (fun d : List (GPattern α × ℕ) => ∀ kv ∈ d, kv.1 ∈ ps) _ ?_ DB _ (keys_dinit ps)
  intro sup seq hsup
  rw [supStepSeq]
  refine foldl_preserves_pred (fun d : List (GPattern α × ℕ) => ∀ kv ∈ d, kv.1 ∈ ps) _ ?_ _ sup hsup
  intro sup' kvB hsup'
  rw [supStepBucket]
  by_cases hany : seq.any (fun e => decide (kvB.1 ⊆ e.2)) = true
  · rw [if_pos hany]
    refine foldl_preserves_pred (fun d : List (GPattern α × ℕ) => ∀ kv ∈ d, kv.1 ∈ ps) _ ?_ _ sup' hsup'
    intro sup'' q hsup''
    rw [supStepPat]
    by_cases hc : contains_with_int_constraints seq q mg Mg ws = true
    · rw [if_pos hc]
      exact keys_bump ps sup'' q hsup''
    · rw [if_neg hc]
      exact hsup''
  · rw [if_neg hany]
    exact hsup'

lemma patItems_eraseIdx :
    ∀ (c : GPattern α) (i : ℕ), i < c.length →
      patItems (c.eraseIdx i) + (c.getD i ∅).val = patItems c := by
  intro c
  induction c with
  | nil =>
    intro i hi
    simp at hi
  | cons s c ih =>
    intro i hi
    cases i with
    | zero =>
      rw [List.eraseIdx_cons_zero, List.getD_cons_zero, patItems_cons]
      exact add_comm _ _
    | succ i =>
      rw [List.eraseIdx_cons_succ, List.getD_cons_succ, patItems_cons, patItems_cons]
      rw [add_assoc, ih i (by simpa using hi)]

lemma patItems_set :
    ∀ (c : GPattern α) (i : ℕ) (t : Finset α), i < c.length →
      patItems (c.set i t) + (c.getD i ∅).val = patItems c + t.val := by
  intro c
  induction c with
  | nil =>
    intro i t hi
    simp at hi
  | cons s c ih =>
    intro i t hi
    cases i with
    | zero =>
      rw [List.set_cons_zero, List.getD_cons_zero, patItems_cons, patItems_cons]
      abel
    | succ i =>
      rw [List.set_cons_succ, List.getD_cons_succ, patItems_cons, patItems_cons]
      rw [add_assoc, ih i t (by simpa using hi)]
      abel

lemma removal_exists (F : List (GPattern α)) (c : GPattern α)
    (hA : ∀ i, i < c.length → (c.getD i ∅).card = 1 → c.eraseIdx i ∈ F)
    (hB : ∀ i, i < c.length → 1 < (c.getD i ∅).card →
      ∀ x ∈ c.getD i ∅, c.set i ((c.getD i ∅).erase x) ∈ F)
    (i : ℕ) (hi : i < c.length) (y : α) (hy : y ∈ c.getD i ∅) :
    ∃ c' ∈ F, ∀ z, Multiset.count z (patItems c') + (if z = y then 1 else 0) =
      Multiset.count z (patItems c) := by
  by_cases hcard : (c.getD i ∅).card = 1
  · have hset : c.getD i ∅ = {y} := by
      obtain ⟨u, hu⟩ := Finset.card_eq_one.1 hcard
      rw [hu] at hy
      rw [Finset.mem_singleton] at hy
      rw [hu, hy]
    refine ⟨c.eraseIdx i, hA i hi hcard, ?_⟩
    intro z
    have h1 := congrArg (Multiset.count z) (patItems_eraseIdx c i hi)
    rw [Multiset.count_add, hset] at h1
    rw [Finset.singleton_val, Multiset.count_singleton] at h1
    exact h1
  · have hcard' : 1 < (c.getD i ∅).card := by
      have : 0 < (c.getD i ∅).card := Finset.card_pos.2 ⟨y, hy⟩
      omega
    refine ⟨c.set i ((c.getD i ∅).erase y), hB i hi hcard' y hy, ?_⟩
    intro z
    have h1 := congrArg (Multiset.count z) (patItems_set c i ((c.getD i ∅).erase y) hi)
    rw [Multiset.count_add, Multiset.count_add, Finset.erase_val] at h1
    have hycnt : 1 ≤ Multiset.count y (c.getD i ∅).val :=
      Multiset.count_pos.2 (by simpa using hy)
    by_cases hzy : z = y
    · subst hzy
      rw [Multiset.count_erase_self] at h1
      rw [if_pos rfl]
      omega
    · rw [Multiset.count_erase_of_ne hzy] at h1
      rw [if_neg hzy]
      omega

lemma nodup_of_prune (F : List (GPattern α))
    (hF : ∀ p ∈ F, (patItems p).Nodup) (c : GPattern α)
    (hA : ∀ i, i < c.length → (c.getD i ∅).card = 1 → c.eraseIdx i ∈ F)
    (hB : ∀ i, i < c.length → 1 < (c.getD i ∅).card →
      ∀ x ∈ c.getD i ∅, c.set i ((c.getD i ∅).erase x) ∈ F)
    (hsize : 3 ≤ patSize c) : (patItems c).Nodup := by
  by_contra hnd
  obtain ⟨x, hx⟩ : ∃ x, 2 ≤ Multiset.count x (patItems c) := by
    by_contra hno
    push_neg at hno
    exact hnd (Multiset.nodup_iff_count_le_one.2 (fun a => by
      have := hno a
      omega))
  by_cases hall : ∀ y ∈ patItems c, y = x
  · have hcnt : Multiset.count x (patItems c) = patSize c := by
      rw [patSize]
      exact Multiset.count_eq_card.2 (fun b hb => (hall b hb).symm)
    have hxmem : x ∈ patItems c := Multiset.count_pos.1 (by omega)
    obtain ⟨s0, hs0, hxs0⟩ := (mem_patItems x c).1 hxmem
    obtain ⟨i, hi, hieq⟩ := List.mem_iff_getElem.1 hs0
    have hgetD : c.getD i ∅ = s0 := by
      rw [List.getD_eq_getElem _ _ hi, hieq]
    obtain ⟨c', hc'F, hcount⟩ := removal_exists F c hA hB i hi x (hgetD ▸ hxs0)
    have hle := Multiset.nodup_iff_count_le_one.1 (hF c' hc'F) x
    have hcx := hcount x
    rw [if_pos rfl] at hcx
    omega
  · push_neg at hall
    obtain ⟨y, hymem, hyx⟩ := hall
    obtain ⟨s0, hs0, hys0⟩ := (mem_patItems y c).1 hymem
    obtain ⟨i, hi, hieq⟩ := List.mem_iff_getElem.1 hs0
    have hgetD : c.getD i ∅ = s0 := by
      rw [List.getD_eq_getElem _ _ hi, hieq]
    obtain ⟨c', hc'F, hcount⟩ := removal_exists F c hA hB i hi y (hgetD ▸ hys0)
    have hle := Multiset.nodup_iff_count_le_one.1 (hF c' hc'F) x
    have hcx := hcount x
    rw [if_neg (fun h : x = y => hyx h.symm)] at hcx
    omega

lemma add_cons_comm (m n : Multiset α) (z : α) :
    m + (z ::ₘ n) = z ::ₘ (m + n) := by
  rw [add_comm m, Multiset.cons_add, add_comm n m]

lemma nodup_card_le (m : Multiset α) (U : Finset α)
    (hnd : m.Nodup) (hsub : ∀ a ∈ m, a ∈ U) :
    Multiset.card m ≤ U.card := by
  have hle : m ≤ U.val := by
    rw [Multiset.le_iff_count]
    intro a
    by_cases ha : a ∈ m
    · have h1 := Multiset.nodup_iff_count_le_one.1 hnd a
      have h2 : 0 < Multiset.count a U.val := Multiset.count_pos.2 (hsub a ha)
      omega
    · rw [Multiset.count_eq_zero.2 ha]
      exact Nat.zero_le _
  exact Multiset.card_le_card hle

lemma mem_patItemsFin (a : α) :
    ∀ p : GPattern α, a ∈ patItemsFin p ↔ ∃ s ∈ p, a ∈ s := by
  intro p
  induction p with
  | nil => simp [patItemsFin]
  | cons s p ih =>
    have hstep : patItemsFin (s :: p) = s ∪ patItemsFin p := rfl
    rw [hstep, Finset.mem_union, ih]
    constructor
    · rintro (h | ⟨u, hu, hau⟩)
      · exact ⟨s, List.mem_cons_self _ _, h⟩
      · exact ⟨u, List.mem_cons_of_mem _ hu, hau⟩
    · rintro ⟨u, hu, hau⟩
      rcases List.mem_cons.1 hu with h | h
      · subst h
        exact Or.inl hau
      · exact Or.inr ⟨u, h, hau⟩

lemma mem_itemsOf (p : GPattern α) (a : α) (ha : a ∈ patItems p) :
    ∀ F : List (GPattern α), p ∈ F → a ∈ itemsOf F := by
  intro F
  induction F with
  | nil => intro hp; simp at hp
  | cons q F ih =>
    intro hp
    have hstep : itemsOf (q :: F) = patItemsFin q ∪ itemsOf F := rfl
    rw [hstep, Finset.mem_union]
    rcases List.mem_cons.1 hp with h | h
    · subst h
      exact Or.inl ((mem_patItemsFin a p).2 ((mem_patItems a p).1 ha))
    · exact Or.inr (ih h)

lemma F1of_good (DB : List (Window α)) (t : ℕ) :
    ∀ p ∈ F1of DB t, GoodPat (itemsOf (F1of DB t)) 1 p := by
  intro p hp
  have hp0 := hp
  rw [F1of] at hp
  obtain ⟨kv, hkv, rfl⟩ := List.mem_map.1 hp
  refine ⟨by simp, ?_, ?_, ?_, ?_⟩
  · intro i hi
    rw [List.mem_singleton] at hi
    subst hi
    exact Finset.singleton_ne_empty _
  · rw [patItems_singleton, Finset.singleton_val]
    exact Multiset.nodup_singleton _
  · intro z hz
    exact mem_itemsOf _ z hz _ hp0
  · simp [patSize_singleton]

lemma levelStep_good (DB : List (Window α)) (mg Mg : Int) (ws : Option Int)
    (t : ℕ) (U : Finset α) (s : ℕ) (F : List (GPattern α))
    (hF : ∀ p ∈ F, GoodPat U s p) :
    ∀ c ∈ levelStep DB mg Mg ws t F, GoodPat U (s + 1) c := by
  intro c hc
  simp only [levelStep] at hc
  by_cases hCk : prune_step (join_step F) F = []
  · rw [if_pos hCk] at hc
    simp at hc
  · rw [if_neg hCk] at hc
    obtain ⟨cnt, hmemsup, hcnt⟩ := (mem_frequentOf _ _ c).1 hc
    have hcCk : c ∈ prune_step (join_step F) F :=
      count_support_keys DB _ mg Mg ws (c, cnt) hmemsup
    rw [prune_step, List.mem_filter] at hcCk
    obtain ⟨hcJoin, hpass⟩ := hcCk
    rw [Bool.and_eq_true] at hpass
    have hA := (passA_iff F c).1 hpass.1
    have hB := (passB_iff F c).1 hpass.2
    have hneF : ∀ p ∈ F, p ≠ [] := fun p hp => (hF p hp).1
    obtain ⟨a, haF, b, hbF, hab, hrule⟩ := (mem_join_step_iff F hneF c).1 hcJoin
    obtain ⟨hane, haiset, handup, haU, hasize⟩ := hF a haF
    obtain ⟨hbne, hbiset, hbndup, hbU, hbsize⟩ := hF b hbF
    rcases hrule with ⟨lb, hlb, hcond, rfl⟩ | ⟨la, x, hla, hlbx, hnx, hlt, hcond, rfl⟩
    · have hlbmem : lb ∈ b := getLast?_mem_self hlb
      have hlbne : lb ≠ ∅ := hbiset lb hlbmem
      have hlbcard : 1 ≤ lb.card :=
        Finset.card_pos.2 (Finset.nonempty_iff_ne_empty.2 hlbne)
      have hsz : patSize (a ++ [lb]) = patSize a + lb.card := by
        rw [patSize_append, patSize_singleton]
      refine ⟨by simp, ?_, ?_, ?_, ?_⟩
      · intro i hi
        rcases List.mem_append.1 hi with h | h
        · exact haiset i h
        · rw [List.mem_singleton] at h
          subst h
          exact hlbne
      · by_cases h3 : 3 ≤ patSize (a ++ [lb])
        · exact nodup_of_prune F (fun p hp => (hF p hp).2.2.1) _ hA hB h3
        · have h1a : 1 ≤ patSize a := patSize_pos a hane haiset
          have hsa1 : patSize a = 1 := by omega
          have hlb1 : lb.card = 1 := by omega
          obtain ⟨A, haA, hAcard⟩ := pattern_of_size_one a hane haiset hsa1
          obtain ⟨u, hu⟩ := Finset.card_eq_one.1 hAcard
          obtain ⟨v, hv⟩ := Finset.card_eq_one.1 hlb1
          have hbshape : b = [lb] := by
            have hdrop : b.dropLast = [] := by
              rw [← hcond, haA]
              rfl
            have hgl := getLast?_shape hlb
            rw [hdrop] at hgl
            simpa using hgl
          have huv : u ≠ v := by
            intro h
            apply hab
            rw [haA, hbshape, hu, hv, h]
          rw [haA, hu, hv, patItems_append, patItems_singleton, patItems_singleton,
            Finset.singleton_val, Finset.singleton_val, Multiset.singleton_add,
            Multiset.nodup_cons]
          refine ⟨by simpa using huv, ?_⟩
          simp
      · intro z hz
        rw [patItems_append] at hz
        rcases Multiset.mem_add.1 hz with h | h
        · exact haU z h
        · rw [patItems_singleton] at h
          exact hbU z ((mem_patItems z b).2 ⟨lb, hlbmem, h⟩)
      · rw [hsz]
        omega
    · have hlaeq : a = a.dropLast ++ [la] := getLast?_shape hla
      have hbshape : b = b.dropLast ++ [({x} : Finset α)] := getLast?_shape hlbx
      have hxU : x ∈ U :=
        hbU x ((mem_patItems x b).2
          ⟨{x}, getLast?_mem_self hlbx, Finset.mem_singleton_self x⟩)
      have hxdrop : x ∉ patItems b.dropLast := by
        intro hmem
        have hnd := hbndup
        rw [hbshape, patItems_append, patItems_singleton, Finset.singleton_val,
          Multiset.nodup_iff_count_le_one] at hnd
        have hcx := hnd x
        rw [Multiset.count_add] at hcx
        have h1 : 1 ≤ Multiset.count x (patItems b.dropLast) :=
          Multiset.count_pos.2 hmem
        have h2 : Multiset.count x ({x} : Multiset α) = 1 := by simp
        omega
      have hxa : x ∉ patItems a := by
        intro hmem
        rw [hlaeq, patItems_append, patItems_singleton] at hmem
        rcases Multiset.mem_add.1 hmem with h | h
        · rw [hcond] at h
          exact hxdrop h
        · exact hnx h
      have hins : (insert x la).val = x ::ₘ la.val := by
        rw [Finset.insert_val, Multiset.ndinsert_of_not_mem hnx]
      have hc_items : patItems (a.dropLast ++ [insert x la]) = x ::ₘ patItems a := by
        conv_rhs => rw [hlaeq]
        simp only [patItems_append, patItems_singleton]
        rw [hins, add_cons_comm]
      refine ⟨by simp, ?_, ?_, ?_, ?_⟩
      · intro i hi
        rcases List.mem_append.1 hi with h | h
        · refine haiset i ?_
          rw [hlaeq]
          exact List.mem_append_left _ h
        · rw [List.mem_singleton] at h
          subst h
          exact Finset.insert_ne_empty _ _
      · rw [hc_items]
        exact Multiset.nodup_cons.2 ⟨hxa, handup⟩
      · intro z hz
        rw [hc_items] at hz
        rcases Multiset.mem_cons.1 hz with h | h
        · subst h
          exact hxU
        · exact haU z h
      · have hps : patSize (a.dropLast ++ [insert x la]) = patSize a + 1 := by
          rw [patSize, hc_items, Multiset.card_cons]
          rfl
        rw [hps]
        omega

lemma levelStep_iterate_good (DB : List (Window α)) (mg Mg : Int)
    (ws : Option Int) (t : ℕ) (U : Finset α) (F0 : List (GPattern α))
    (h0 : ∀ p ∈ F0, GoodPat U 1 p) :
    ∀ j, ∀ p ∈ (levelStep DB mg Mg ws t)^[j] F0, GoodPat U (j + 1) p := by
  intro j
  induction j with
  | zero => simpa using h0
  | succ j ih =>
    rw [Function.iterate_succ_apply']
    exact levelStep_good DB mg Mg ws t U (j + 1) _ ih

lemma runLoop_fuel_stable (DB : List (Window α)) (mg Mg : Int)
    (ws : Option Int) (t : ℕ) :
    ∀ (j : ℕ) (F : List (GPattern α)), (levelStep DB mg Mg ws t)^[j] F = [] →
      ∀ (fuel fuel' k : ℕ) (res : List (ℕ × List (GPattern α × ℕ))),
        j ≤ fuel → j ≤ fuel' →
        runLoop DB mg Mg ws t fuel F k res =
          runLoop DB mg Mg ws t fuel' F k res := by
  intro j
  induction j with
  | zero =>
    intro F hF fuel fuel' k res _ _
    simp only [Function.iterate_zero_apply] at hF
    subst hF
    rw [runLoop_nil, runLoop_nil]
  | succ j ih =>
    intro F hF fuel fuel' k res hf hf'
    by_cases hFnil : F = []
    · subst hFnil
      rw [runLoop_nil, runLoop_nil]
    · obtain ⟨f1, rfl⟩ : ∃ f1, fuel = f1 + 1 := ⟨fuel - 1, by omega⟩
      obtain ⟨f2, rfl⟩ : ∃ f2, fuel' = f2 + 1 := ⟨fuel' - 1, by omega⟩
      rw [Function.iterate_succ_apply] at hF
      simp only [runLoop]
      rw [if_neg hFnil, if_neg hFnil]
      by_cases hCk : prune_step (join_step F) F = []
      · rw [if_pos hCk, if_pos hCk]
      · rw [if_neg hCk, if_neg hCk]
        by_cases hFk : frequentOf
            (count_support_db_int DB (prune_step (join_step F) F) mg Mg ws) t = []
        · rw [if_pos hFk, if_pos hFk]
        · rw [if_neg hFk, if_neg hFk]
          have hstep : levelStep DB mg Mg ws t F = frequentOf
              (count_support_db_int DB (prune_step (join_step F) F) mg Mg ws) t := by
            simp only [levelStep]
            rw [if_neg hCk]
          have hlev : (levelStep DB mg Mg ws t)^[j] (frequentOf
              (count_support_db_int DB (prune_step (join_step F) F) mg Mg ws) t) = [] := by
            rw [← hstep]
            exact hF
          exact ih _ hlev f1 f2 _ _ (by omega) (by omega)

/-- C6: for every window database and every configuration (any rational
`min_sup_pct`, including 0, and any gap/window parameters) the level-wise
mining loop terminates: iterating one level of join, prune, support counting
and threshold filtering from the level-1 frequent set reaches the empty set
within `N` levels (each level's survivors use one more item occurrence,
duplicate-free over the finite item universe), and the fueled `while F_prev`
loop of `gsp_run` yields the same result under any fuel of at least `N`. -/
theorem gsp_levels_terminate (DB : List (Window α)) (pct : ℚ) (mg Mg : Int)
    (ws : Option Int) :
    ∃ N, (levelStep DB mg Mg ws (min_sup_count pct DB.length))^[N]
        (F1of DB (min_sup_count pct DB.length)) = [] ∧
      ∀ fuel fuel' k res, N ≤ fuel → N ≤ fuel' →
        runLoop DB mg Mg ws (min_sup_count pct DB.length) fuel
            (F1of DB (min_sup_count pct DB.length)) k res =
          runLoop DB mg Mg ws (min_sup_count pct DB.length) fuel'
            (F1of DB (min_sup_count pct DB.length)) k res := by
  have hterm : (levelStep DB mg Mg ws (min_sup_count pct DB.length))^[(itemsOf
      (F1of DB (min_sup_count pct DB.length))).card]
      (F1of DB (min_sup_count pct DB.length)) = [] := by
    rw [List.eq_nil_iff_forall_not_mem]
    intro p hp
    have hgood := levelStep_iterate_good DB mg Mg ws (min_sup_count pct DB.length)
      (itemsOf (F1of DB (min_sup_count pct DB.length)))
      (F1of DB (min_sup_count pct DB.length))
      (F1of_good DB (min_sup_count pct DB.length))
      ((itemsOf (F1of DB (min_sup_count pct DB.length))).card) p hp
    obtain ⟨hne, hiset, hnd, hsub, hsz⟩ := hgood
    have hle : patSize p ≤ (itemsOf (F1of DB (min_sup_count pct DB.length))).card :=
      nodup_card_le _ _ hnd hsub
    omega
  refine ⟨_, hterm, ?_⟩
  intro fuel fuel' k res hf hf'
  exact runLoop_fuel_stable DB mg Mg ws _ _ _ hterm fuel fuel' k res hf hf'
